import Mathlib

/-!
# Verification of `scripts/apply-rate-limiting.py`

A shallow embedding of the rate-limit patching script.  File contents and
route paths are modelled as `List Char` (Python strings are sequences of
characters; all text handled by the script is ASCII).  The regular
expressions appearing in the script are fixed concrete patterns, and each
is embedded as an explicit executable matcher with exactly the semantics
the Python `re` module gives it on that pattern (documented at each
definition).
-/

namespace ServiceDesk

/-! ## Basic substring primitives -/

/-- `isPre a s`: is `a` a prefix of `s`?  (executable) -/
def isPre : List Char → List Char → Bool
  | [], _ => true
  | _ :: _, [] => false
  | a :: as, b :: bs => a == b && isPre as bs

/-- Strip the prefix `a` from `s`, if present. -/
def dropPre : List Char → List Char → Option (List Char)
  | [], s => some s
  | _ :: _, [] => none
  | a :: as, b :: bs => if a == b then dropPre as bs else none

/-- Leftmost occurrence search: returns the remainder of `s` after the first
occurrence of `a`, scanning left to right (the semantics of a regex engine
searching for a literal). -/
def findSub (a : List Char) : List Char → Option (List Char)
  | [] => if isPre a [] then some [] else none
  | s@(_ :: t) => if isPre a s then some (s.drop a.length) else findSub a t

/-- `occurs a s`: does `a` occur as a contiguous substring of `s`?
This is the Python membership test `a in s` for strings. -/
def occurs (a s : List Char) : Bool := (findSub a s).isSome

/-! ## The policy selector (`get_rate_limit_config`)

The rule table `RATE_LIMIT_MAP` in the script is a Python dict literal whose
iteration order is its insertion (source) order.  Each key is a regex used
with `re.search` (match anywhere).  The only regex metacharacter occurring
in the keys is `.*`, so each pattern is embedded as its list of literal
segments separated by the `.*` gaps.  Python `.` (no DOTALL flag is
passed) does not match a newline, so a `.*` gap between two segments can
absorb any characters except newlines; the scan of `re.search` for the
start position of the whole match, by contrast, may skip arbitrary
characters, newlines included. -/

/-- `gapScan k a s`: can `.*` (which never crosses a newline) followed by
the literal segment `a` followed by a continuation accepted by `k` match
starting at the beginning of `s`?  The matcher tries the segment at every
position reachable without passing a newline (full backtracking, hence
complete for the existential regex semantics; see `gapScan_iff`). -/
def gapScan (k : List Char → Bool) (a : List Char) : List Char → Bool
  | [] => isPre a [] && k []
  | s@(c :: t) => (isPre a s && k (s.drop a.length)) || (!(c == '\n') && gapScan k a t)

/-- The continuation of the sequential matcher: the remaining segments of
the pattern occur in order, each preceded by a newline-free `.*` gap. -/
def tailMatch : List (List Char) → List Char → Bool
  | [] => fun _ => true
  | a :: rest => gapScan (tailMatch rest) a

/-- `headScan k a s`: can the whole match start anywhere in `s` (the scan
of `re.search`), with the first literal segment `a` at the start position
and the continuation accepted by `k`?  Unlike `gapScan`, the scanned-over
prefix is unconstrained: `re.search` may start a match after a newline. -/
def headScan (k : List Char → Bool) (a : List Char) : List Char → Bool
  | [] => isPre a [] && k []
  | s@(_ :: t) => (isPre a s && k (s.drop a.length)) || headScan k a t

/-- `patMatch segs s`: does the pattern whose literal segments are `segs`
(separated by `.*` gaps, which cannot cross a newline) `re.search`-match
anywhere in `s`?  (`patMatch_iff` below proves this matcher equivalent to
the declarative semantics `SegsOccur`.) -/
def patMatch : List (List Char) → List Char → Bool
  | [], _ => true
  | a :: rest, s => headScan (tailMatch rest) a s

/-- Declarative continuation semantics of a `.*`-separated pattern: the
segments occur in order from the current position, each preceded by a gap
free of newlines (Python `.` does not match a newline). -/
inductive SegsFrom : List (List Char) → List Char → Prop
  | nil (s : List Char) : SegsFrom [] s
  | cons (a : List Char) (rest : List (List Char)) (g r : List Char) :
      (∀ ch ∈ g, ch ≠ '\n') → SegsFrom rest r → SegsFrom (a :: rest) (g ++ a ++ r)

/-- Declarative semantics of `re.search` on a `.*`-separated pattern: the
match may start anywhere (the scanned-over prefix `x` is unconstrained),
and after the first segment the remaining segments follow with
newline-free gaps. -/
inductive SegsOccur : List (List Char) → List Char → Prop
  | nil (s : List Char) : SegsOccur [] s
  | cons (a : List Char) (rest : List (List Char)) (x r : List Char) :
      SegsFrom rest r → SegsOccur (a :: rest) (x ++ a ++ r)

/-- The ordered rule table of the script (`RATE_LIMIT_MAP`), in source
order; each pattern is given by its `.*`-separated literal segments. -/
def RATE_LIMIT_MAP : List (List (List Char) × String) :=
  [ (["/api/auth/register".data], "RATE_LIMITS.AUTH_REGISTER"),
    (["/api/auth/login".data], "RATE_LIMITS.AUTH_LOGIN"),
    (["/api/auth/".data, "password".data], "RATE_LIMITS.AUTH_FORGOT_PASSWORD"),
    (["/api/auth/".data], "RATE_LIMITS.AUTH_LOGIN"),
    (["/api/ai/".data], "RATE_LIMITS.AI_CLASSIFY"),
    (["/api/integrations/email/send".data], "RATE_LIMITS.EMAIL_SEND"),
    (["/api/email/send".data], "RATE_LIMITS.EMAIL_SEND"),
    (["/api/integrations/whatsapp/send".data], "RATE_LIMITS.WHATSAPP_SEND"),
    (["/api/integrations/".data, "webhook".data], "RATE_LIMITS.WEBHOOK"),
    (["/api/tickets/".data, "create".data], "RATE_LIMITS.TICKET_MUTATION"),
    (["/api/tickets/".data, "comments".data], "RATE_LIMITS.TICKET_COMMENT"),
    (["/api/tickets/".data, "attachments".data], "RATE_LIMITS.TICKET_ATTACHMENT"),
    (["/api/tickets/".data], "RATE_LIMITS.TICKET_MUTATION"),
    (["/api/portal/tickets".data], "RATE_LIMITS.TICKET_MUTATION"),
    (["/api/knowledge/".data, "search".data], "RATE_LIMITS.KNOWLEDGE_SEARCH"),
    (["/api/search/".data], "RATE_LIMITS.SEARCH"),
    (["/api/workflows/execute".data], "RATE_LIMITS.WORKFLOW_EXECUTE"),
    (["/api/workflows/".data], "RATE_LIMITS.WORKFLOW_MUTATION"),
    (["/api/analytics/".data], "RATE_LIMITS.ANALYTICS"),
    (["/api/admin/".data, "users".data], "RATE_LIMITS.ADMIN_USER"),
    (["/api/admin/".data], "RATE_LIMITS.ADMIN_MUTATION") ]

/-- The loop of `get_rate_limit_config`: try each rule in order, first
match wins, default on fall-through. -/
def getRateLimitAux : List (List (List Char) × String) → List Char → String
  | [], _ => "RATE_LIMITS.DEFAULT"
  | (pat, cfg) :: rest, s => if patMatch pat s then cfg else getRateLimitAux rest s

/-- `get_rate_limit_config` from the script: scan `RATE_LIMIT_MAP` in
source order, return the policy token of the first rule whose pattern
`re.search`-matches the route path, else the default token. -/
def get_rate_limit_config (route : List Char) : String :=
  getRateLimitAux RATE_LIMIT_MAP route

/-! ## Route-path derivation

`apply_rate_limiting` derives the route path by
chained `str.replace` calls that delete the project root, `/app` and
`/route.ts`.  Python `str.replace` with an empty replacement (and `old`
nonempty) deletes every
occurrence of `old`, scanning left to right without overlap.  `eraseAll`
is that primitive, fuelled for structural recursion (the fuel `s.length`
always suffices). -/

def eraseAllF (old : List Char) : Nat → List Char → List Char
  | _, [] => []
  | 0, s => s
  | Nat.succ f, s@(c :: t) =>
    if old.isEmpty then s
    else if isPre old s then eraseAllF old f (s.drop old.length)
    else c :: eraseAllF old f t

/-- Python `s.replace` with empty replacement, for nonempty `old`. -/
def eraseAll (old s : List Char) : List Char := eraseAllF old s.length s

/-- `PROJECT_ROOT` of the script, as a string. -/
def PROJECT_ROOT : List Char := "/home/nic20/ProjetosWeb/ServiceDesk".data

/-- The route-path derivation of `apply_rate_liming`, line 71 of the
script: three chained global deletions. -/
def routePathOf (p : List Char) : List Char :=
  eraseAll "/route.ts".data (eraseAll "/app".data (eraseAll PROJECT_ROOT p))

/-! ## Handler discovery (`function_pattern` and `re.sub`)

The script's handler regex is
`(export async function (GET|POST|PUT|DELETE|PATCH)\s*\(\s*request:\s*NextRequest[^\x7b]*\x7b)`.
Every quantifier in it is determined: the verb alternatives are pairwise
prefix-incompatible, each `\s*` is a maximal whitespace run (the following
literal starts with a non-whitespace character), and `[^\x7b]*\x7b` runs to
the first following opening brace.  `tryMatch` is that matcher, anchored at
the head of the input; `re.sub` scanning is `scanF` below. -/

/-- Python `\s`. -/
def isWs (c : Char) : Bool :=
  c == ' ' || c == '\t' || c == '\n' || c == '\r' || c == '\x0b' || c == '\x0c'

def litExport : List Char := "export async function ".data

def verbs : List (List Char) :=
  ["GET".data, "POST".data, "PUT".data, "DELETE".data, "PATCH".data]

/-- First alternative of an alternation that is a prefix of `s`. -/
def matchAlt : List (List Char) → List Char → Option (List Char × List Char)
  | [], _ => none
  | v :: vs, s =>
    match dropPre v s with
    | some r => some (v, r)
    | none => matchAlt vs s

/-- Split `s` at its first `\x7b` (regex `[^\x7b]*\x7b`):
`s = mid ++ \x7b :: rest` with no brace in `mid`. -/
def splitBrace : List Char → Option (List Char × List Char)
  | [] => none
  | c :: t =>
    if c == '\x7b' then some ([], t)
    else
      match splitBrace t with
      | none => none
      | some (mid, rest) => some (c :: mid, rest)

/-- Anchored match of the handler-signature regex at the head of `s`;
returns the matched text and the remainder. -/
def tryMatch (s : List Char) : Option (List Char × List Char) :=
  (dropPre litExport s).bind (fun s1 =>
  (matchAlt verbs s1).bind (fun p =>
    let v := p.1
    let s2 := p.2
    let w1 := s2.takeWhile isWs
    let s3 := s2.dropWhile isWs
    (dropPre "(".data s3).bind (fun s4 =>
      let w2 := s4.takeWhile isWs
      let s5 := s4.dropWhile isWs
      (dropPre "request:".data s5).bind (fun s6 =>
        let w3 := s6.takeWhile isWs
        let s7 := s6.dropWhile isWs
        (dropPre "NextRequest".data s7).bind (fun s8 =>
          (splitBrace s8).bind (fun q =>
            some (litExport ++ v ++ w1 ++ "(".data ++ w2 ++ "request:".data ++
                  w3 ++ "NextRequest".data ++ q.1 ++ ['\x7b'], q.2)))))))

/-- The guard snippet (`rate_limit_code`), parameterized by the selected
policy token. -/
def snipA : List Char :=
  "\n  // SECURITY: Rate limiting\n  const rateLimitResponse = await applyRateLimit(request, ".data

def snipB : List Char := ");\n  if (rateLimitResponse) return rateLimitResponse;\n".data

def snippet (cfg : List Char) : List Char := snipA ++ cfg ++ snipB

def symApply : List Char := "applyRateLimit".data

def symResp : List Char := "rateLimitResponse".data

/-- The already-guarded check on the 300-character window after a match. -/
def hasSym (w : List Char) : Bool := occurs symApply w || occurs symResp w

/-- `re.sub(function_pattern, add_rate_limit, content)`: scan left to
right; at a match, consult the 300-character window of the scanned string
after the match; insert the snippet right after the match when the window
has neither guard symbol; continue after the match.  Fuelled (any fuel
`≥ s.length` gives the scan's value, `scanF_stable`). -/
def scanF (cfg : List Char) : Nat → List Char → List Char
  | _, [] => []
  | 0, s => s
  | Nat.succ fuel, s@(c :: t) =>
    match tryMatch s with
    | some (m, rest) =>
      if hasSym (rest.take 300) then m ++ scanF cfg fuel rest
      else m ++ snippet cfg ++ scanF cfg fuel rest
    | none => c :: scanF cfg fuel t

/-- The `modified` flag contribution of the `re.sub` pass. -/
def scanFc (cfg : List Char) : Nat → List Char → Bool
  | _, [] => false
  | 0, _ => false
  | Nat.succ fuel, s@(c :: t) =>
    match tryMatch s with
    | some (_, rest) =>
      if hasSym (rest.take 300) then scanFc cfg fuel rest else true
    | none =>
      match c with
      | _ => scanFc cfg fuel t

/-- The `re.sub` pass over a whole content string. -/
def subRun (cfg s : List Char) : List Char := scanF cfg s.length s

/-- Did the `re.sub` pass insert anywhere? -/
def subChanged (cfg s : List Char) : Bool := scanFc cfg s.length s

/-- The decomposition of a successful handler-signature match: the fixed
head literal, one HTTP verb, three whitespace runs, the parameter text up
to the first brace, the brace. -/
def MatchShape (m : List Char) : Prop :=
  ∃ v w1 w2 w3 mid,
    v ∈ verbs ∧ (∀ x ∈ w1, isWs x = true) ∧ (∀ x ∈ w2, isWs x = true) ∧
    (∀ x ∈ w3, isWs x = true) ∧ (∀ x ∈ mid, x ≠ '\x7b') ∧
    m = litExport ++ v ++ w1 ++ "(".data ++ w2 ++ "request:".data ++
        w3 ++ "NextRequest".data ++ mid ++ ['\x7b']

/-! ## Import insertion

The script finds the last match of the MULTILINE regex
`^import .* from ['\x22'].*['\x22'];?\s*$` via `re.finditer` and splices
the new import line at `last_import.end()`.

Because `\s` includes the newline, a match's span runs past its own line:
greedy `\s*` followed by MULTILINE `$` places the match end at the last
line boundary inside the whitespace run that follows the matched line
(end of string if the run reaches it).  The non-overlap rule of
`finditer` cannot
hide any import line: a span extends beyond its own line across
whitespace only, and an import line starts with the non-whitespace `i` —
so the matches are exactly the matching lines.  The model therefore:
(1) takes all line starts (position 0 and each position after a `\n`);
(2) keeps those whose line fully matches
`import .* from ['\x22'].*['\x22'];?\s*` (`importLineOk`);
(3) takes the last one and computes the regex end by walking the
whitespace run after the line (`goo`). -/

def isQuote (c : Char) : Bool := c == '\x27' || c == '"'

/-- Does `l` (a line remainder) match `;?\s*` to its end? -/
def tailSemiWs (l : List Char) : Bool :=
  l.all isWs ||
    (match l with
     | ';' :: r => r.all isWs
     | _ => false)

/-- Does `l` match `.*['\x22'];?\s*` to its end? -/
def afterQuoteOk : List Char → Bool
  | [] => false
  | c :: r => (isQuote c && tailSemiWs r) || afterQuoteOk r

/-- Does `l` match `.* from ['\x22'].*['\x22'];?\s*` to its end? -/
def afterFrom : List Char → Bool
  | [] => false
  | l@(_ :: r) =>
    (match dropPre " from ".data l with
     | some (q :: rest) => isQuote q && afterQuoteOk rest
     | _ => false) || afterFrom r

/-- Does the line `l` (without its newline) match the import regex? -/
def importLineOk (l : List Char) : Bool :=
  match dropPre "import ".data l with
  | none => false
  | some r => afterFrom r

/-- Positions immediately after each `\n` of the content (`i` is the
position of the head of the first argument within the whole content). -/
def nlPositionsAux : List Char → Nat → List Nat
  | [], _ => []
  | c :: t, i =>
    if c == '\n' then (i + 1) :: nlPositionsAux t (i + 1) else nlPositionsAux t (i + 1)

/-- All MULTILINE `^` anchor positions of the content. -/
def lineStarts (c : List Char) : List Nat := 0 :: nlPositionsAux c 0

/-- The line starting at position `p` (up to, not including, its `\n`). -/
def lineAt (c : List Char) (p : Nat) : List Char :=
  (c.drop p).takeWhile (fun x => !(x == '\n'))

def matchingStarts (c : List Char) : List Nat :=
  (lineStarts c).filter (fun p => importLineOk (lineAt c p))

/-- Start position of the last line matching the import regex. -/
def lastImportStart (c : List Char) : Option Nat := (matchingStarts c).getLast?

/-- Offset, within the whitespace run at the head of the argument, of the
last MULTILINE `$` position (`none` when the argument starts with
non-whitespace; the argument is always empty or newline-headed here). -/
def goo : List Char → Option Nat
  | [] => some 0
  | c :: t =>
    if isWs c then
      match goo t with
      | some m => some (m + 1)
      | none => if c == '\n' then some 0 else none
    else none

/-- `last_import.end()`: the end of the regex match whose line starts at
`p` — past the line, through following whitespace, to the last line
boundary before the next non-whitespace character. -/
def importInsertPos (c : List Char) (p : Nat) : Nat :=
  p + (lineAt c p).length + (goo (c.drop (p + (lineAt c p).length))).getD 0

/-- The inserted import line (`new_import` in the script). -/
def newImport : List Char :=
  "\nimport \x7b applyRateLimit, RATE_LIMITS \x7d from \x27@/lib/rate-limit/redis-limiter\x27;".data

/-- Lines 77–88 of the script: when `applyRateLimit` is absent, splice
`new_import` at the end of the last import-regex match (if any). -/
def importStep (c : List Char) : List Char × Bool :=
  if occurs symApply c then (c, false)
  else
    match lastImportStart c with
    | none => (c, false)
    | some p => (c.take (importInsertPos c p) ++ newImport ++ c.drop (importInsertPos c p), true)

/-! ## The per-file transform (`apply_rate_limiting`) and the orchestrator -/

/-- The already-patched marker: the import source of the guard module. -/
def marker : List Char := "from \x27@/lib/rate-limit/redis-limiter\x27".data

/-- Policy token selected for a file path (route derivation + selector). -/
def rlConfig (path : List Char) : String := get_rate_limit_config (routePathOf path)

/-- The pure content transform of `apply_rate_limiting` (lines 66–118):
marker short-circuit, import insertion, guard insertion; returns
(changed, status message, resulting on-disk content). -/
def applyRL (path c : List Char) : Bool × String × List Char :=
  if occurs marker c then (false, "Already updated", c)
  else
    let cfg := (rlConfig path).data
    let c1 := (importStep c).1
    let m1 := (importStep c).2
    let c2 := subRun cfg c1
    let m2 := subChanged cfg c1
    if m1 || m2 then (true, "Updated (" ++ rlConfig path ++ ")", c2)
    else (false, "No changes needed", c)

/-- A candidate file of a run: its path and the outcome of reading it
(the `try` in `apply_rate_limiting` catches any per-file exception; reads
are the modelled fault source, carrying the exception text). -/
structure FileEntry where
  path : List Char
  read : Except String (List Char)

/-- `Path.with_suffix` with argument `.ts.bak`: replace the last dot-suffix of the
final path component (a dot at the component's head, or no dot, means no
suffix: then `.ts.bak` is appended). -/
def backupPath (p : List Char) : List Char :=
  let rev := p.reverse
  let nameR := rev.takeWhile (fun c => !(c == '/'))
  match nameR.findIdx? (fun c => c == '.') with
  | some i =>
    if i + 1 < nameR.length then
      (".ts.bak".data.reverse ++ nameR.drop (i + 1) ++ rev.drop nameR.length).reverse
    else (".ts.bak".data.reverse ++ rev).reverse
  | none => (".ts.bak".data.reverse ++ rev).reverse

/-- The processing of one file (lines 61-121 wrapped by the loop body of `main`):
result flag, status message, and the writes performed in order (backup
first, then the patched file; nothing on failure or no change). -/
def processFile (f : FileEntry) : Bool × String × List (List Char × List Char) :=
  match f.read with
  | .error e => (false, "Error: " ++ e, [])
  | .ok c =>
    let r := applyRL f.path c
    if r.1 then (true, r.2.1, [(backupPath f.path, c), (f.path, r.2.2)])
    else (r.1, r.2.1, [])

/-- Did reading this file raise? -/
def raisesB (f : FileEntry) : Bool :=
  match f.read with
  | .error _ => true
  | .ok _ => false

/-- The counter updates of the loop in `main` (updated, skipped, errors): the
loop accumulates left to right; the counts are order-independent, so the
recursion processes the head and adds the tail's counts. -/
def runCounts : List FileEntry → Nat × Nat × Nat
  | [] => (0, 0, 0)
  | f :: fs =>
    let r := processFile f
    let acc := runCounts fs
    if r.1 then (acc.1 + 1, acc.2.1, acc.2.2)
    else if occurs "Already updated".data r.2.1.data then (acc.1, acc.2.1 + 1, acc.2.2)
    else (acc.1, acc.2.1, acc.2.2 + 1)

/-! ## Idempotence of the guard-insertion scan

`Ins sn t t'` says `t'` is `t` with copies of `sn` inserted, each
immediately after some `\x7b` of `t` — the only way `scanF` ever edits.
Everything the second run needs (no new matches, windows still flagged,
the marker neither created nor destroyed) follows from this shape plus
concrete facts about the snippet text. -/

inductive Ins (sn : List Char) : List Char → List Char → Prop
  | nil : Ins sn [] []
  | cons (c : Char) {t t' : List Char} : Ins sn t t' → Ins sn (c :: t) (c :: t')
  | ins {t t' : List Char} : Ins sn t t' → Ins sn ('\x7b' :: t) ('\x7b' :: (sn ++ t'))

/-- The shape of every policy token the selector can return: uppercase
letters, dots and underscores only. -/
def cfgOk (cfg : List Char) : Bool :=
  cfg.all (fun ch => ch.isUpper || ch == '.' || ch == '_')

theorem isPre_iff {a s : List Char} : isPre a s = true ↔ a <+: s := by
  induction a generalizing s with
  | nil => simp [isPre]
  | cons x as ih =>
    cases s with
    | nil => simp [isPre]
    | cons y t =>
      simp only [isPre, Bool.and_eq_true, beq_iff_eq, List.cons_prefix_cons, ih]

theorem dropPre_some {a s t : List Char} (h : dropPre a s = some t) : s = a ++ t := by
  induction a generalizing s with
  | nil => simp [dropPre] at h; simp [h]
  | cons x as ih =>
    cases s with
    | nil => simp [dropPre] at h
    | cons y u =>
      by_cases hxy : x = y
      · subst hxy
        simp [dropPre] at h
        simp [ih h]
      · simp [dropPre, hxy] at h

theorem dropPre_append (a t : List Char) : dropPre a (a ++ t) = some t := by
  induction a with
  | nil => simp [dropPre]
  | cons x as ih => simp [dropPre, ih]

theorem dropPre_iff {a s t : List Char} : dropPre a s = some t ↔ s = a ++ t :=
  ⟨dropPre_some, fun h => h ▸ dropPre_append a t⟩

theorem suffix_of_suffix_length_le {l₁ l₂ l : List Char}
    (h₁ : l₁ <:+ l) (h₂ : l₂ <:+ l) (h : l₁.length ≤ l₂.length) : l₁ <:+ l₂ := by
  rw [← List.reverse_prefix] at h₁ h₂ ⊢
  exact List.prefix_of_prefix_length_le h₁ h₂ (by simpa using h)

theorem findSub_found {a s : List Char} (hp : isPre a s = true) :
    findSub a s = some (s.drop a.length) := by
  cases s with
  | nil =>
    rcases isPre_iff.mp hp with ⟨w, hw⟩
    simp at hw
    simp [findSub, hw, isPre]
  | cons c t => simp [findSub, hp]

theorem findSub_some {a s r : List Char} (h : findSub a s = some r) :
    ∃ x, s = x ++ a ++ r := by
  induction s with
  | nil =>
    simp only [findSub] at h
    by_cases hp : isPre a [] = true
    · rw [if_pos hp] at h
      rcases isPre_iff.mp hp with ⟨w, hw⟩
      simp at hw
      simp only [List.drop_nil, Option.some.injEq] at h
      exact ⟨[], by simp [hw.1, ← h]⟩
    · rw [if_neg hp] at h; cases h
  | cons c t ih =>
    simp only [findSub] at h
    by_cases hp : isPre a (c :: t) = true
    · rw [if_pos hp] at h
      rcases isPre_iff.mp hp with ⟨w, hw⟩
      simp only [Option.some.injEq] at h
      refine ⟨[], ?_⟩
      have : (c :: t).drop a.length = w := by rw [← hw, List.drop_left]
      rw [this] at h
      simp [← hw, ← h]
    · rw [if_neg hp] at h
      rcases ih h with ⟨x, hx⟩
      exact ⟨c :: x, by simp [hx]⟩

theorem findSub_complete (a r : List Char) :
    ∀ x, ∃ r', findSub a (x ++ a ++ r) = some r' ∧ r <:+ r'
  | [] => by
    refine ⟨r, ?_, List.suffix_refl r⟩
    rw [List.nil_append, findSub_found (isPre_iff.mpr ⟨r, rfl⟩), List.drop_left]
  | c :: x => by
    have hs : (c :: x) ++ a ++ r = c :: (x ++ a ++ r) := by simp
    by_cases hp : isPre a (c :: (x ++ a ++ r)) = true
    · refine ⟨(c :: (x ++ a ++ r)).drop a.length, ?_, ?_⟩
      · rw [hs, findSub_found hp]
      · have h₂ : (c :: (x ++ a ++ r)).drop a.length <:+ c :: (x ++ a ++ r) :=
          List.drop_suffix _ _
        have h₁ : r <:+ c :: (x ++ a ++ r) := ⟨c :: (x ++ a), by simp⟩
        refine suffix_of_suffix_length_le h₁ h₂ ?_
        rcases isPre_iff.mp hp with ⟨w, hw⟩
        have := congrArg List.length hw
        simp only [List.length_append, List.length_cons] at this ⊢
        simp [List.length_drop]
        omega
    · rcases findSub_complete a r x with ⟨r', hr', hsuf⟩
      refine ⟨r', ?_, hsuf⟩
      rw [hs]
      simp only [findSub]
      rw [if_neg hp]
      exact hr'

theorem occurs_iff {a s : List Char} : occurs a s = true ↔ a <:+: s := by
  constructor
  · intro h
    unfold occurs at h
    cases hf : findSub a s with
    | none => rw [hf] at h; simp at h
    | some r =>
      rcases findSub_some hf with ⟨x, hx⟩
      exact ⟨x, r, by simp [hx]⟩
  · rintro ⟨x, r, hx⟩
    rcases findSub_complete a r x with ⟨r', hr', _⟩
    unfold occurs
    rw [show s = x ++ a ++ r from hx.symm, hr']
    rfl

theorem gapScan_here {k : List Char → Bool} {a s : List Char}
    (hp : isPre a s = true) (hk : k (s.drop a.length) = true) :
    gapScan k a s = true := by
  cases s with
  | nil =>
    simp only [gapScan, Bool.and_eq_true]
    exact ⟨hp, by simpa using hk⟩
  | cons c t =>
    simp only [gapScan, Bool.or_eq_true, Bool.and_eq_true]
    exact Or.inl ⟨hp, hk⟩

theorem gapScan_complete {k : List Char → Bool} {a r : List Char} (hk : k r = true) :
    ∀ g, (∀ ch ∈ g, ch ≠ '\n') → gapScan k a (g ++ a ++ r) = true := by
  intro g
  induction g with
  | nil =>
    intro _
    have hp : isPre a ([] ++ a ++ r) = true := isPre_iff.mpr ⟨r, by simp⟩
    have hd : (([] : List Char) ++ a ++ r).drop a.length = r := by
      simp [List.drop_left]
    exact gapScan_here hp (by rw [hd]; exact hk)
  | cons c g' ih =>
    intro hgap
    have hc : c ≠ '\n' := hgap c (List.mem_cons_self c g')
    have ht := ih (fun ch hch => hgap ch (List.mem_cons_of_mem c hch))
    have hshape : (c :: g') ++ a ++ r = c :: (g' ++ a ++ r) := by simp
    rw [hshape]
    simp only [gapScan, Bool.or_eq_true, Bool.and_eq_true]
    exact Or.inr ⟨by simp [hc], ht⟩

theorem gapScan_iff {k : List Char → Bool} {a s : List Char} :
    gapScan k a s = true ↔
      ∃ g r, s = g ++ a ++ r ∧ (∀ ch ∈ g, ch ≠ '\n') ∧ k r = true := by
  constructor
  · intro h
    induction s with
    | nil =>
      simp only [gapScan, Bool.and_eq_true] at h
      rcases h with ⟨hp, hk⟩
      rcases isPre_iff.mp hp with ⟨w, hw⟩
      have ha : a = [] := by
        cases a with
        | nil => rfl
        | cons _ _ => simp at hw
      exact ⟨[], [], by simp [ha], by simp, by simpa using hk⟩
    | cons c t ih =>
      simp only [gapScan, Bool.or_eq_true, Bool.and_eq_true] at h
      rcases h with ⟨hp, hk⟩ | ⟨hc, hg⟩
      · rcases isPre_iff.mp hp with ⟨w, hw⟩
        have hd : (c :: t).drop a.length = w := by rw [← hw, List.drop_left]
        refine ⟨[], w, by simp [← hw], by simp, ?_⟩
        rw [← hd]
        exact hk
      · rcases ih hg with ⟨g, r, ht, hgap, hk⟩
        refine ⟨c :: g, r, by simp [ht], ?_, hk⟩
        intro ch hch
        rcases List.mem_cons.mp hch with h | h
        · subst h
          intro hcn
          rw [hcn] at hc
          simp at hc
        · exact hgap ch h
  · rintro ⟨g, r, hs, hgap, hk⟩
    rw [hs]
    exact gapScan_complete hk g hgap

theorem headScan_here {k : List Char → Bool} {a s : List Char}
    (hp : isPre a s = true) (hk : k (s.drop a.length) = true) :
    headScan k a s = true := by
  cases s with
  | nil =>
    simp only [headScan, Bool.and_eq_true]
    exact ⟨hp, by simpa using hk⟩
  | cons c t =>
    simp only [headScan, Bool.or_eq_true, Bool.and_eq_true]
    exact Or.inl ⟨hp, hk⟩

theorem headScan_iff {k : List Char → Bool} {a s : List Char} :
    headScan k a s = true ↔ ∃ x r, s = x ++ a ++ r ∧ k r = true := by
  constructor
  · intro h
    induction s with
    | nil =>
      simp only [headScan, Bool.and_eq_true] at h
      rcases h with ⟨hp, hk⟩
      rcases isPre_iff.mp hp with ⟨w, hw⟩
      have ha : a = [] := by
        cases a with
        | nil => rfl
        | cons _ _ => simp at hw
      exact ⟨[], [], by simp [ha], by simpa using hk⟩
    | cons c t ih =>
      simp only [headScan, Bool.or_eq_true, Bool.and_eq_true] at h
      rcases h with ⟨hp, hk⟩ | hh
      · rcases isPre_iff.mp hp with ⟨w, hw⟩
        have hd : (c :: t).drop a.length = w := by rw [← hw, List.drop_left]
        refine ⟨[], w, by simp [← hw], ?_⟩
        rw [← hd]
        exact hk
      · rcases ih hh with ⟨x, r, ht, hk⟩
        exact ⟨c :: x, r, by simp [ht], hk⟩
  · rintro ⟨x, r, hs, hk⟩
    subst hs
    induction x with
    | nil =>
      have hp : isPre a ([] ++ a ++ r) = true := isPre_iff.mpr ⟨r, by simp⟩
      have hd : (([] : List Char) ++ a ++ r).drop a.length = r := by
        simp [List.drop_left]
      exact headScan_here hp (by rw [hd]; exact hk)
    | cons c x' ih =>
      have hshape : (c :: x') ++ a ++ r = c :: (x' ++ a ++ r) := by simp
      rw [hshape]
      simp only [headScan, Bool.or_eq_true, Bool.and_eq_true]
      exact Or.inr ih

theorem tailMatch_iff {p : List (List Char)} {s : List Char} :
    tailMatch p s = true ↔ SegsFrom p s := by
  induction p generalizing s with
  | nil =>
    constructor
    · intro _
      exact SegsFrom.nil s
    · intro _
      rfl
  | cons a rest ih =>
    constructor
    · intro h
      simp only [tailMatch] at h
      rcases gapScan_iff.mp h with ⟨g, r, hs, hgap, hk⟩
      rw [hs]
      exact SegsFrom.cons a rest g r hgap (ih.mp hk)
    · intro h
      cases h with
      | cons _ _ g r hgap h' =>
        simp only [tailMatch]
        exact gapScan_iff.mpr ⟨g, r, rfl, hgap, ih.mpr h'⟩

theorem patMatch_iff {p : List (List Char)} {s : List Char} :
    patMatch p s = true ↔ SegsOccur p s := by
  cases p with
  | nil =>
    constructor
    · intro _
      exact SegsOccur.nil s
    · intro _
      rfl
  | cons a rest =>
    constructor
    · intro h
      simp only [patMatch] at h
      rcases headScan_iff.mp h with ⟨x, r, hs, hk⟩
      rw [hs]
      exact SegsOccur.cons a rest x r (tailMatch_iff.mp hk)
    · intro h
      cases h with
      | cons _ _ x r h' =>
        simp only [patMatch]
        exact headScan_iff.mpr ⟨x, r, rfl, tailMatch_iff.mpr h'⟩

/-- Sanity check of the newline semantics of the matcher: on a route path
with a newline between the admin prefix and `users`, the two-segment
admin pattern does not match (a `.*` gap cannot cross the newline), so the
selector falls through to the later single-segment admin rule; without the
newline the two-segment rule fires as usual. -/
theorem get_config_newline :
    patMatch ["/api/admin/".data, "users".data] "/api/admin/\nusers".data = false ∧
    get_rate_limit_config "/api/admin/\nusers".data = "RATE_LIMITS.ADMIN_MUTATION" ∧
    get_rate_limit_config "/api/admin/users".data = "RATE_LIMITS.ADMIN_USER" := by
  decide

theorem getRateLimitAux_spec (L : List (List (List Char) × String)) (s : List Char) :
    ((∀ r ∈ L, ¬ SegsOccur r.1 s) ∧ getRateLimitAux L s = "RATE_LIMITS.DEFAULT")
    ∨ ∃ (i : Nat) (h : i < L.length),
        SegsOccur (L.get ⟨i, h⟩).1 s ∧
        getRateLimitAux L s = (L.get ⟨i, h⟩).2 ∧
        ∀ (j : Nat) (hj : j < L.length), j < i → ¬ SegsOccur (L.get ⟨j, hj⟩).1 s := by
  induction L with
  | nil => exact Or.inl ⟨by simp, rfl⟩
  | cons hd rest ih =>
    obtain ⟨pat, cfg⟩ := hd
    by_cases hm : patMatch pat s = true
    · refine Or.inr ⟨0, by simp, ?_, ?_, ?_⟩
      · exact patMatch_iff.mp hm
      · simp [getRateLimitAux, hm]
      · intro j hj hj0; omega
    · rcases ih with ⟨hnone, hval⟩ | ⟨i, hi, hocc, hval, hmin⟩
      · refine Or.inl ⟨?_, ?_⟩
        · intro r hr
          rcases List.mem_cons.mp hr with h | h
          · subst h
            intro hc
            exact hm (patMatch_iff.mpr hc)
          · exact hnone r h
        · simp only [getRateLimitAux, if_neg hm]
          exact hval
      · refine Or.inr ⟨i + 1, by simpa using Nat.succ_lt_succ hi, ?_, ?_, ?_⟩
        · simpa using hocc
        · simp only [getRateLimitAux, if_neg hm]
          simpa using hval
        · intro j hj hji
          cases j with
          | zero =>
            intro hc
            exact hm (patMatch_iff.mpr (by simpa using hc))
          | succ k =>
            have hk : k < rest.length := by simpa using hj
            have := hmin k hk (by omega)
            simpa using this

/-- C1: for every route-path string, `get_rate_limit_config` returns the
policy token of the earliest rule in the ordered `RATE_LIMIT_MAP` whose
pattern matches anywhere in the string (regex-search semantics), and the
default token `RATE_LIMITS.DEFAULT` when no rule matches; earlier rules
always beat later ones. -/
theorem C1_policy_first_match (s : List Char) :
    ((∀ r ∈ RATE_LIMIT_MAP, ¬ SegsOccur r.1 s) ∧
      get_rate_limit_config s = "RATE_LIMITS.DEFAULT")
    ∨ ∃ (i : Nat) (h : i < RATE_LIMIT_MAP.length),
        SegsOccur (RATE_LIMIT_MAP.get ⟨i, h⟩).1 s ∧
        get_rate_limit_config s = (RATE_LIMIT_MAP.get ⟨i, h⟩).2 ∧
        ∀ (j : Nat) (hj : j < RATE_LIMIT_MAP.length), j < i →
          ¬ SegsOccur (RATE_LIMIT_MAP.get ⟨j, hj⟩).1 s :=
  getRateLimitAux_spec RATE_LIMIT_MAP s

theorem eraseAllF_stable (old : List Char) :
    ∀ f g s, s.length ≤ f → s.length ≤ g → eraseAllF old f s = eraseAllF old g s := by
  intro f
  induction f with
  | zero =>
    intro g s hf _
    have : s = [] := List.length_eq_zero.mp (Nat.le_zero.mp hf)
    subst this
    cases g <;> simp [eraseAllF]
  | succ f ih =>
    intro g s hf hg
    cases s with
    | nil => cases g <;> simp [eraseAllF]
    | cons c t =>
      cases g with
      | zero => simp at hg
      | succ g' =>
        simp only [eraseAllF]
        by_cases he : old.isEmpty
        · simp [he]
        · simp only [he, if_false]
          by_cases hp : isPre old (c :: t)
          · simp only [hp, if_true]
            have hlen : ((c :: t).drop old.length).length ≤ f := by
              have h1 : 1 ≤ old.length := by
                cases old with
                | nil => simp [List.isEmpty] at he
                | cons _ _ => simp
              simp only [List.length_drop, List.length_cons] at *
              omega
            have hleng : ((c :: t).drop old.length).length ≤ g' := by
              have h1 : 1 ≤ old.length := by
                cases old with
                | nil => simp [List.isEmpty] at he
                | cons _ _ => simp
              simp only [List.length_drop, List.length_cons] at *
              omega
            exact ih g' _ hlen hleng
          · simp only [hp, if_false]
            have hlt : t.length ≤ f := by simp at hf; omega
            have hltg : t.length ≤ g' := by simp at hg; omega
            simp [ih g' t hlt hltg]

theorem occurs_cons_false {a : List Char} {c : Char} {t : List Char}
    (h : occurs a (c :: t) = false) : isPre a (c :: t) = false ∧ occurs a t = false := by
  unfold occurs at h ⊢
  simp only [findSub] at h
  by_cases hp : isPre a (c :: t)
  · rw [if_pos hp] at h; simp at h
  · rw [if_neg hp] at h
    exact ⟨by simp [hp], h⟩

theorem eraseAllF_no_occur {old : List Char} :
    ∀ f s, occurs old s = false → eraseAllF old f s = s := by
  intro f
  induction f with
  | zero => intro s _; cases s <;> simp [eraseAllF]
  | succ f ih =>
    intro s hocc
    cases s with
    | nil => simp [eraseAllF]
    | cons c t =>
      rcases occurs_cons_false hocc with ⟨hp, ht⟩
      simp only [eraseAllF]
      by_cases he : old.isEmpty
      · simp [he]
      · simp [he, hp, ih t ht]

/-- Deleting every occurrence of `old` from `old ++ q` when `old` does not
occur in `q` strips exactly the leading copy. -/
theorem eraseAll_strip {old q : List Char} (hne : old ≠ [])
    (h : occurs old q = false) : eraseAll old (old ++ q) = q := by
  unfold eraseAll
  cases hol : old with
  | nil => exact absurd hol hne
  | cons oc ot =>
    rw [← hol]
    have hlen : (old ++ q).length = old.length + q.length := by simp
    have hpos : 0 < old.length := by rw [hol]; simp
    have hcons : ∃ c t, old ++ q = c :: t := by
      cases hoq : old ++ q with
      | nil =>
        rw [hol] at hoq
        simp at hoq
      | cons c t => exact ⟨c, t, rfl⟩
    rcases hcons with ⟨c, t, hct⟩
    rw [hct]
    have hf : (c :: t).length = Nat.succ t.length := by simp
    simp only [eraseAllF]
    have hemp : old.isEmpty = false := by rw [hol]; rfl
    have hp : isPre old (c :: t) = true := by
      rw [← hct]
      exact isPre_iff.mpr ⟨q, rfl⟩
    simp only [hemp, if_false, hp, if_true, Bool.false_eq_true]
    have hdrop : (c :: t).drop old.length = q := by
      rw [← hct, List.drop_left]
    rw [hdrop]
    have hq : q.length ≤ t.length := by
      have := congrArg List.length hct
      simp at this
      omega
    rw [eraseAllF_stable old t.length q.length q hq le_rfl]
    exact eraseAllF_no_occur q.length q h

/-- C9: for a file path of the run (the project root followed by a
remainder in which the root string does not recur), the derived route path
is the remainder after deleting the root prefix and then every occurrence
of the substrings `/app` and `/route.ts` — global substring deletion, not
removal of only the structural directory and filename, so a directory
segment such as `apple` also loses its `/app` characters. -/
theorem C9_route_path_global_replace (q : List Char)
    (h : occurs PROJECT_ROOT q = false) :
    routePathOf (PROJECT_ROOT ++ q) =
      eraseAll "/route.ts".data (eraseAll "/app".data q) := by
  unfold routePathOf
  rw [eraseAll_strip (by simp [PROJECT_ROOT]) h]

/-- Witness for C9 at the path `…/app/api/apple/route.ts`: the `apple`
segment loses its `/app` characters, yielding route path `/apile`. -/
theorem C9_route_path_global_replace_witness :
    occurs PROJECT_ROOT "/app/api/apple/route.ts".data = false ∧
    routePathOf (PROJECT_ROOT ++ "/app/api/apple/route.ts".data) = "/apile".data := by
  refine ⟨by decide, ?_⟩
  rw [C9_route_path_global_replace "/app/api/apple/route.ts".data (by decide)]
  decide

theorem matchAlt_some {vs : List (List Char)} {s v r : List Char}
    (h : matchAlt vs s = some (v, r)) : v ∈ vs ∧ s = v ++ r := by
  induction vs with
  | nil => simp [matchAlt] at h
  | cons w ws ih =>
    simp only [matchAlt] at h
    cases hd : dropPre w s with
    | some t =>
      rw [hd] at h
      simp at h
      exact ⟨by simp [h.1], by rw [← h.1, ← h.2]; exact dropPre_some hd⟩
    | none =>
      rw [hd] at h
      rcases ih h with ⟨h1, h2⟩
      exact ⟨List.mem_cons_of_mem _ h1, h2⟩

theorem splitBrace_some {s mid rest : List Char}
    (h : splitBrace s = some (mid, rest)) :
    s = mid ++ '\x7b' :: rest ∧ ∀ c ∈ mid, c ≠ '\x7b' := by
  induction s generalizing mid with
  | nil => simp [splitBrace] at h
  | cons c t ih =>
    simp only [splitBrace] at h
    by_cases hc : c = '\x7b'
    · subst hc
      simp at h
      obtain ⟨h1, h2⟩ := h
      subst h1
      subst h2
      simp
    · rw [if_neg (by simpa using hc)] at h
      cases hs : splitBrace t with
      | none => rw [hs] at h; cases h
      | some p =>
        obtain ⟨mid', rest'⟩ := p
        rw [hs] at h
        simp at h
        rcases @ih mid' (by rw [hs, h.2]) with ⟨h1, h2⟩
        constructor
        · rw [← h.1, h1]; simp
        · intro x hx
          rw [← h.1] at hx
          rcases List.mem_cons.mp hx with hx | hx
          · subst hx; exact hc
          · exact h2 x hx

theorem splitBrace_build {mid : List Char} (rest : List Char)
    (h : ∀ c ∈ mid, c ≠ '\x7b') :
    splitBrace (mid ++ '\x7b' :: rest) = some (mid, rest) := by
  induction mid with
  | nil => simp [splitBrace]
  | cons c t ih =>
    have hc : c ≠ '\x7b' := h c (by simp)
    simp only [List.cons_append, splitBrace]
    rw [if_neg (by simpa using hc)]
    simp only [List.append_eq]
    rw [ih (fun x hx => h x (by simp [hx]))]

theorem takeWhile_ws_build {w : List Char} (hw : ∀ x ∈ w, isWs x = true)
    {c : Char} (hc : isWs c = false) (r : List Char) :
    (w ++ c :: r).takeWhile isWs = w := by
  induction w with
  | nil =>
    simp only [List.nil_append]
    exact List.takeWhile_cons_of_neg (by simp [hc])
  | cons a t ih =>
    have ha : isWs a = true := hw a (by simp)
    simp only [List.cons_append, List.takeWhile_cons_of_pos ha]
    rw [ih (fun x hx => hw x (by simp [hx]))]

theorem dropWhile_ws_build {w : List Char} (hw : ∀ x ∈ w, isWs x = true)
    {c : Char} (hc : isWs c = false) (r : List Char) :
    (w ++ c :: r).dropWhile isWs = c :: r := by
  induction w with
  | nil =>
    simp only [List.nil_append]
    exact List.dropWhile_cons_of_neg (by simp [hc])
  | cons a t ih =>
    have ha : isWs a = true := hw a (by simp)
    simp only [List.cons_append, List.dropWhile_cons_of_pos ha]
    exact ih (fun x hx => hw x (by simp [hx]))

theorem takeWhile_ws_app {w u : List Char} {c : Char} (hw : ∀ x ∈ w, isWs x = true)
    (hu : u.head? = some c) (hc : isWs c = false) : (w ++ u).takeWhile isWs = w := by
  cases u with
  | nil => simp at hu
  | cons d r =>
    simp only [List.head?_cons, Option.some.injEq] at hu
    subst hu
    exact takeWhile_ws_build hw hc r

theorem dropWhile_ws_app {w u : List Char} {c : Char} (hw : ∀ x ∈ w, isWs x = true)
    (hu : u.head? = some c) (hc : isWs c = false) : (w ++ u).dropWhile isWs = u := by
  cases u with
  | nil => simp at hu
  | cons d r =>
    simp only [List.head?_cons, Option.some.injEq] at hu
    subst hu
    exact dropWhile_ws_build hw hc r

theorem matchAlt_build {v : List Char} (hv : v ∈ verbs) (T : List Char) :
    matchAlt verbs (v ++ T) = some (v, T) := by
  simp only [verbs, List.mem_cons, List.not_mem_nil, or_false] at hv
  rcases hv with rfl | rfl | rfl | rfl | rfl <;> rfl

theorem tryMatch_some_shape {s m rest : List Char}
    (h : tryMatch s = some (m, rest)) : MatchShape m ∧ s = m ++ rest := by
  unfold tryMatch at h
  cases h0 : dropPre litExport s with
  | none => rw [h0] at h; cases h
  | some s1 =>
  rw [h0, Option.some_bind] at h
  cases h1 : matchAlt verbs s1 with
  | none => rw [h1] at h; cases h
  | some p1 =>
  obtain ⟨v, s2⟩ := p1
  rw [h1, Option.some_bind] at h
  simp only [] at h
  cases h2 : dropPre "(".data (s2.dropWhile isWs) with
  | none => rw [h2] at h; cases h
  | some s4 =>
  rw [h2, Option.some_bind] at h
  cases h3 : dropPre "request:".data (s4.dropWhile isWs) with
  | none => rw [h3] at h; cases h
  | some s6 =>
  rw [h3, Option.some_bind] at h
  cases h4 : dropPre "NextRequest".data (s6.dropWhile isWs) with
  | none => rw [h4] at h; cases h
  | some s8 =>
  rw [h4, Option.some_bind] at h
  cases h5 : splitBrace s8 with
  | none => rw [h5] at h; cases h
  | some p5 =>
  obtain ⟨mid, rest'⟩ := p5
  rw [h5, Option.some_bind] at h
  simp only [Option.some.injEq, Prod.mk.injEq] at h
  obtain ⟨hm, hrest⟩ := h
  subst hrest
  rcases splitBrace_some h5 with ⟨hs8, hmid⟩
  have hv := matchAlt_some h1
  refine ⟨⟨v, s2.takeWhile isWs, s4.takeWhile isWs, s6.takeWhile isWs, mid,
    hv.1, ?_, ?_, ?_, hmid, hm.symm⟩, ?_⟩
  · exact fun x hx => List.mem_takeWhile_imp hx
  · exact fun x hx => List.mem_takeWhile_imp hx
  · exact fun x hx => List.mem_takeWhile_imp hx
  · rw [dropPre_some h0, hv.2, ← List.takeWhile_append_dropWhile (p := isWs) (l := s2),
      dropPre_some h2, ← List.takeWhile_append_dropWhile (p := isWs) (l := s4),
      dropPre_some h3, ← List.takeWhile_append_dropWhile (p := isWs) (l := s6),
      dropPre_some h4, hs8, ← hm]
    simp

theorem tryMatch_build {m : List Char} (hm : MatchShape m) (X : List Char) :
    tryMatch (m ++ X) = some (m, X) := by
  obtain ⟨v, w1, w2, w3, mid, hv, hw1, hw2, hw3, hmid, he⟩ := hm
  subst he
  have harr : (litExport ++ v ++ w1 ++ "(".data ++ w2 ++ "request:".data ++
      w3 ++ "NextRequest".data ++ mid ++ ['\x7b']) ++ X =
      litExport ++ (v ++ (w1 ++ ("(".data ++ (w2 ++ ("request:".data ++
      (w3 ++ ("NextRequest".data ++ (mid ++ ('\x7b' :: X))))))))) := by
    simp
  rw [harr]
  unfold tryMatch
  rw [dropPre_append, Option.some_bind, matchAlt_build hv, Option.some_bind]
  simp only []
  have hu1 : ("(".data ++ (w2 ++ ("request:".data ++ (w3 ++ ("NextRequest".data ++
      (mid ++ ('\x7b' :: X))))))).head? = some '(' := rfl
  rw [takeWhile_ws_app hw1 hu1 (by decide), dropWhile_ws_app hw1 hu1 (by decide),
    dropPre_append, Option.some_bind]
  have hu2 : ("request:".data ++ (w3 ++ ("NextRequest".data ++
      (mid ++ ('\x7b' :: X))))).head? = some 'r' := rfl
  rw [takeWhile_ws_app hw2 hu2 (by decide), dropWhile_ws_app hw2 hu2 (by decide),
    dropPre_append, Option.some_bind]
  have hu3 : ("NextRequest".data ++ (mid ++ ('\x7b' :: X))).head? = some 'N' := rfl
  rw [takeWhile_ws_app hw3 hu3 (by decide), dropWhile_ws_app hw3 hu3 (by decide),
    dropPre_append, Option.some_bind]
  rw [splitBrace_build _ hmid, Option.some_bind]

theorem MatchShape.ne_nil {m : List Char} (hm : MatchShape m) : m ≠ [] := by
  obtain ⟨v, w1, w2, w3, mid, _, _, _, _, _, he⟩ := hm
  subst he
  simp [litExport]

theorem scanF_stable (cfg : List Char) :
    ∀ f g s, s.length ≤ f → s.length ≤ g → scanF cfg f s = scanF cfg g s := by
  intro f
  induction f with
  | zero =>
    intro g s hf _
    have : s = [] := List.length_eq_zero.mp (Nat.le_zero.mp hf)
    subst this
    cases g <;> simp [scanF]
  | succ f ih =>
    intro g s hf hg
    cases s with
    | nil => cases g <;> simp [scanF]
    | cons c t =>
      cases g with
      | zero => simp at hg
      | succ g' =>
        simp only [scanF]
        cases htm : tryMatch (c :: t) with
        | none =>
          have hlt : t.length ≤ f := by simp at hf; omega
          have hltg : t.length ≤ g' := by simp at hg; omega
          simp only [htm, ih g' t hlt hltg]
        | some p =>
          obtain ⟨m, rest⟩ := p
          rcases tryMatch_some_shape htm with ⟨hshape, hdec⟩
          have hmlen : 1 ≤ m.length := by
            cases hmm : m with
            | nil => exact absurd hmm hshape.ne_nil
            | cons _ _ => simp
          have hrl : rest.length ≤ t.length := by
            have := congrArg List.length hdec
            simp at this
            omega
          have h1 : rest.length ≤ f := by simp at hf; omega
          have h2 : rest.length ≤ g' := by simp at hg; omega
          simp only [htm, ih g' rest h1 h2]

theorem scanFc_stable (cfg : List Char) :
    ∀ f g s, s.length ≤ f → s.length ≤ g → scanFc cfg f s = scanFc cfg g s := by
  intro f
  induction f with
  | zero =>
    intro g s hf _
    have : s = [] := List.length_eq_zero.mp (Nat.le_zero.mp hf)
    subst this
    cases g <;> simp [scanFc]
  | succ f ih =>
    intro g s hf hg
    cases s with
    | nil => cases g <;> simp [scanFc]
    | cons c t =>
      cases g with
      | zero => simp at hg
      | succ g' =>
        simp only [scanFc]
        cases htm : tryMatch (c :: t) with
        | none =>
          have hlt : t.length ≤ f := by simp at hf; omega
          have hltg : t.length ≤ g' := by simp at hg; omega
          simp only [htm, ih g' t hlt hltg]
        | some p =>
          obtain ⟨m, rest⟩ := p
          rcases tryMatch_some_shape htm with ⟨hshape, hdec⟩
          have hmlen : 1 ≤ m.length := by
            cases hmm : m with
            | nil => exact absurd hmm hshape.ne_nil
            | cons _ _ => simp
          have hrl : rest.length ≤ t.length := by
            have := congrArg List.length hdec
            simp at this
            omega
          have h1 : rest.length ≤ f := by simp at hf; omega
          have h2 : rest.length ≤ g' := by simp at hg; omega
          simp only [htm, ih g' rest h1 h2]

theorem tryMatch_nil : tryMatch ([] : List Char) = none := rfl

theorem rest_length_lt {s m rest : List Char} (hdec : s = m ++ rest)
    (hne : m ≠ []) : rest.length < s.length := by
  have h1 : 1 ≤ m.length := by
    cases hmm : m with
    | nil => exact absurd hmm hne
    | cons _ _ => simp
  have := congrArg List.length hdec
  simp at this
  omega

theorem subRun_match_skip {cfg s m rest : List Char}
    (h : tryMatch s = some (m, rest)) (hsym : hasSym (rest.take 300) = true) :
    subRun cfg s = m ++ subRun cfg rest := by
  rcases tryMatch_some_shape h with ⟨hshape, hdec⟩
  cases hs : s with
  | nil => rw [hs, tryMatch_nil] at h; cases h
  | cons c t =>
    rw [hs] at h hdec
    have hlt : rest.length < (c :: t).length := rest_length_lt hdec hshape.ne_nil
    simp only [subRun, List.length_cons, scanF, h, hsym, if_true]
    rw [scanF_stable cfg t.length rest.length rest (by simp at hlt; omega) le_rfl]

theorem subRun_match_ins {cfg s m rest : List Char}
    (h : tryMatch s = some (m, rest)) (hsym : hasSym (rest.take 300) = false) :
    subRun cfg s = m ++ snippet cfg ++ subRun cfg rest := by
  rcases tryMatch_some_shape h with ⟨hshape, hdec⟩
  cases hs : s with
  | nil => rw [hs, tryMatch_nil] at h; cases h
  | cons c t =>
    rw [hs] at h hdec
    have hlt : rest.length < (c :: t).length := rest_length_lt hdec hshape.ne_nil
    simp only [subRun, List.length_cons, scanF, h, hsym, if_false, Bool.false_eq_true]
    rw [scanF_stable cfg t.length rest.length rest (by simp at hlt; omega) le_rfl]

theorem subChanged_match_skip {cfg s m rest : List Char}
    (h : tryMatch s = some (m, rest)) (hsym : hasSym (rest.take 300) = true) :
    subChanged cfg s = subChanged cfg rest := by
  rcases tryMatch_some_shape h with ⟨hshape, hdec⟩
  cases hs : s with
  | nil => rw [hs, tryMatch_nil] at h; cases h
  | cons c t =>
    rw [hs] at h hdec
    have hlt : rest.length < (c :: t).length := rest_length_lt hdec hshape.ne_nil
    simp only [subChanged, List.length_cons, scanFc, h, hsym, if_true]
    rw [scanFc_stable cfg t.length rest.length rest (by simp at hlt; omega) le_rfl]

theorem subChanged_match_ins {cfg s m rest : List Char}
    (h : tryMatch s = some (m, rest)) (hsym : hasSym (rest.take 300) = false) :
    subChanged cfg s = true := by
  cases hs : s with
  | nil => rw [hs, tryMatch_nil] at h; cases h
  | cons c t =>
    rw [hs] at h
    simp [subChanged, scanFc, h, hsym]

theorem subRun_head_none (cfg : List Char) {c : Char} {t : List Char}
    (h : tryMatch (c :: t) = none) :
    subRun cfg (c :: t) = c :: subRun cfg t ∧
    subChanged cfg (c :: t) = subChanged cfg t := by
  constructor
  · simp only [subRun, List.length_cons, scanF, h]
  · simp only [subChanged, List.length_cons, scanFc, h]

theorem subRun_no_match (cfg : List Char) :
    ∀ s, (∀ i, i < s.length → tryMatch (s.drop i) = none) →
      subRun cfg s = s ∧ subChanged cfg s = false := by
  intro s
  induction s with
  | nil => intro _; exact ⟨rfl, rfl⟩
  | cons c t ih =>
    intro hno
    have h0 : tryMatch (c :: t) = none := by
      have := hno 0 (by simp)
      simpa using this
    have ht : ∀ i, i < t.length → tryMatch (t.drop i) = none := by
      intro i hi
      have := hno (i + 1) (by simp; omega)
      simpa using this
    rcases ih ht with ⟨h1, h2⟩
    rcases subRun_head_none cfg h0 with ⟨h3, h4⟩
    exact ⟨by rw [h3, h1], by rw [h4, h2]⟩

/-- C5: for every content and every handler-signature match (an exported
async function named GET/POST/PUT/DELETE/PATCH whose first parameter is
`request: NextRequest`, captured up to the opening brace — `MatchShape`):
if the 300-character window right after the brace contains neither
`applyRateLimit` nor `rateLimitResponse`, the fixed guard snippet
(invoking the guard with the request and the selected policy token and
early-returning on rejection) is spliced immediately after the brace and
the content is marked changed; otherwise the handler is left unchanged. -/
theorem C5_guard_insertion (cfg s m rest : List Char)
    (h : tryMatch s = some (m, rest)) :
    MatchShape m ∧ s = m ++ rest ∧
    (hasSym (rest.take 300) = false →
      subRun cfg s = m ++ snippet cfg ++ subRun cfg rest ∧
      subChanged cfg s = true) ∧
    (hasSym (rest.take 300) = true →
      subRun cfg s = m ++ subRun cfg rest ∧
      subChanged cfg s = subChanged cfg rest) := by
  rcases tryMatch_some_shape h with ⟨hshape, hdec⟩
  refine ⟨hshape, hdec, ?_, ?_⟩
  · intro hsym
    exact ⟨subRun_match_ins h hsym, subChanged_match_ins h hsym⟩
  · intro hsym
    exact ⟨subRun_match_skip h hsym, subChanged_match_skip h hsym⟩

/-- Witness for C5: a concrete unguarded `GET` handler receives the
snippet right after its opening brace. -/
theorem C5_guard_insertion_witness :
    tryMatch "export async function GET(request: NextRequest) \x7b\n  return;\n\x7d".data =
      some ("export async function GET(request: NextRequest) \x7b".data,
            "\n  return;\n\x7d".data) ∧
    hasSym ("\n  return;\n\x7d".data.take 300) = false ∧
    subRun "RATE_LIMITS.DEFAULT".data
        "export async function GET(request: NextRequest) \x7b\n  return;\n\x7d".data =
      "export async function GET(request: NextRequest) \x7b".data ++
        snippet "RATE_LIMITS.DEFAULT".data ++
        subRun "RATE_LIMITS.DEFAULT".data "\n  return;\n\x7d".data ∧
    subChanged "RATE_LIMITS.DEFAULT".data
        "export async function GET(request: NextRequest) \x7b\n  return;\n\x7d".data = true :=
  ⟨by decide, by decide,
    (C5_guard_insertion "RATE_LIMITS.DEFAULT".data _ _ _ (by decide)).2.2.1 (by decide)⟩

theorem nlPositionsAux_bounds :
    ∀ (t : List Char) (i x : Nat), x ∈ nlPositionsAux t i → i < x ∧ x ≤ i + t.length := by
  intro t
  induction t with
  | nil => intro i x hx; simp [nlPositionsAux] at hx
  | cons c u ih =>
    intro i x hx
    simp only [nlPositionsAux] at hx
    by_cases hc : c == '\n'
    · rw [if_pos hc] at hx
      rcases List.mem_cons.mp hx with h | h
      · subst h; constructor <;> simp
      · rcases ih (i + 1) x h with ⟨h1, h2⟩
        constructor
        · omega
        · simp only [List.length_cons]; omega
    · rw [if_neg hc] at hx
      rcases ih (i + 1) x hx with ⟨h1, h2⟩
      constructor
      · omega
      · simp only [List.length_cons]; omega

theorem nlPositionsAux_sorted :
    ∀ (t : List Char) (i : Nat), (nlPositionsAux t i).Pairwise (· < ·) := by
  intro t
  induction t with
  | nil => intro i; simp [nlPositionsAux]
  | cons c u ih =>
    intro i
    simp only [nlPositionsAux]
    by_cases hc : c == '\n'
    · rw [if_pos hc]
      refine List.Pairwise.cons ?_ (ih (i + 1))
      intro x hx
      exact (nlPositionsAux_bounds u (i + 1) x hx).1
    · rw [if_neg hc]
      exact ih (i + 1)

theorem lineStarts_sorted (c : List Char) : (lineStarts c).Pairwise (· < ·) := by
  unfold lineStarts
  refine List.Pairwise.cons ?_ (nlPositionsAux_sorted c 0)
  intro x hx
  exact (nlPositionsAux_bounds c 0 x hx).1

theorem lineStarts_le_length {c : List Char} {p : Nat} (hp : p ∈ lineStarts c) :
    p ≤ c.length := by
  unfold lineStarts at hp
  rcases List.mem_cons.mp hp with h | h
  · omega
  · have := (nlPositionsAux_bounds c 0 p h).2
    omega

theorem le_getLast_of_sorted :
    ∀ (l : List Nat) (q : Nat), l.Pairwise (· < ·) → l.getLast? = some q →
      ∀ x ∈ l, x ≤ q := by
  intro l
  induction l with
  | nil => intro q _ hq; simp at hq
  | cons a t ih =>
    intro q hs hq x hx
    cases t with
    | nil =>
      simp at hq
      rcases List.mem_singleton.mp hx with h
      omega
    | cons b u =>
      have hq' : (b :: u).getLast? = some q := by
        rw [List.getLast?_cons_cons] at hq
        exact hq
      have hqmem : q ∈ b :: u := by
        rcases List.mem_of_mem_getLast? hq' with h
        exact h
      rcases List.mem_cons.mp hx with h | h
      · subst h
        have := (List.pairwise_cons.mp hs).1 q hqmem
        omega
      · exact ih q (List.pairwise_cons.mp hs).2 hq' x h

theorem goo_spec :
    ∀ (s : List Char) (o : Nat), goo s = some o →
      o ≤ s.length ∧ (∀ k, k < o → ∃ ch, s.get? k = some ch ∧ isWs ch = true) ∧
      (o = s.length ∨ s.get? o = some '\n') := by
  intro s
  induction s with
  | nil =>
    intro o ho
    simp only [goo, Option.some.injEq] at ho
    subst ho
    exact ⟨by simp, fun k hk => by omega, Or.inl rfl⟩
  | cons c t ih =>
    intro o ho
    simp only [goo] at ho
    by_cases hw : isWs c = true
    · rw [if_pos hw] at ho
      cases hg : goo t with
      | some m =>
        rw [hg] at ho
        simp only [Option.some.injEq] at ho
        subst ho
        rcases ih m hg with ⟨h1, h2, h3⟩
        refine ⟨by simp; omega, ?_, ?_⟩
        · intro k hk
          cases k with
          | zero => exact ⟨c, by simp, hw⟩
          | succ j =>
            rcases h2 j (by omega) with ⟨ch, hch, hchw⟩
            exact ⟨ch, by simpa using hch, hchw⟩
        · rcases h3 with h3 | h3
          · left; simp [h3]
          · right; simpa using h3
      | none =>
        rw [hg] at ho
        by_cases hc : c == '\n'
        · rw [if_pos hc] at ho
          simp only [Option.some.injEq] at ho
          subst ho
          refine ⟨by simp, fun k hk => by omega, Or.inr ?_⟩
          simp only [List.get?_cons_zero, Option.some.injEq]
          exact eq_of_beq hc
        · rw [if_neg hc] at ho; cases ho
    · rw [if_neg hw] at ho; cases ho

theorem drop_lineAt (c : List Char) (p : Nat) :
    c.drop (p + (lineAt c p).length) =
      (c.drop p).dropWhile (fun x => !(x == '\n')) := by
  have h1 : c.drop (p + (lineAt c p).length) = (c.drop p).drop (lineAt c p).length := by
    rw [List.drop_drop, Nat.add_comm]
  rw [h1]
  unfold lineAt
  have h2 := List.drop_left ((c.drop p).takeWhile (fun x => !(x == '\n')))
    ((c.drop p).dropWhile (fun x => !(x == '\n')))
  rw [List.takeWhile_append_dropWhile] at h2
  exact h2

theorem dropWhile_nil_or_head (l : List Char) :
    l.dropWhile (fun x => !(x == '\n')) = [] ∨
    ∃ t, l.dropWhile (fun x => !(x == '\n')) = '\n' :: t := by
  induction l with
  | nil => left; rfl
  | cons c u ih =>
    by_cases hc : c == '\n'
    · right
      refine ⟨u, ?_⟩
      have hce := eq_of_beq hc
      subst hce
      simp [List.dropWhile_cons_of_neg]
    · rw [List.dropWhile_cons_of_pos (by simpa using hc)]
      exact ih

theorem goo_head_nl (t : List Char) : ∃ o, goo ('\n' :: t) = some o := by
  simp only [goo]
  cases hg : goo t with
  | some m => exact ⟨m + 1, by simp [isWs]⟩
  | none => exact ⟨0, by simp [isWs]⟩

theorem lineAt_length_le (c : List Char) (p : Nat) :
    (lineAt c p).length ≤ c.length - p := by
  unfold lineAt
  calc ((c.drop p).takeWhile (fun x => !(x == '\n'))).length
      ≤ (c.drop p).length := ( List.takeWhile_prefix _).length_le
    _ = c.length - p := List.length_drop p c

/-- C6 (amended): for content without `applyRateLimit`, if no line matches
the import regex nothing is inserted; if some line matches, exactly one
copy of the new import line is spliced at the end of the *last regex
match* — a position at or past the end of the last matching line,
separated from it only by whitespace, and lying at a line boundary (the
last one before the next non-whitespace character, or the end of file).
With blank lines after the last import the splice point is *not*
immediately after that line — see the counterexample. -/
theorem C6_import_splice (c : List Char) (hsym : occurs symApply c = false) :
    ((∀ p ∈ lineStarts c, importLineOk (lineAt c p) = false) → importStep c = (c, false)) ∧
    (∀ p, p ∈ lineStarts c → importLineOk (lineAt c p) = true →
      ∃ q r, lastImportStart c = some q ∧ q ∈ lineStarts c ∧
        importLineOk (lineAt c q) = true ∧
        (∀ p', p' ∈ lineStarts c → importLineOk (lineAt c p') = true → p' ≤ q) ∧
        q + (lineAt c q).length ≤ r ∧ r ≤ c.length ∧
        (∀ k, q + (lineAt c q).length ≤ k → k < r →
          ∃ ch, c.get? k = some ch ∧ isWs ch = true) ∧
        (r = c.length ∨ c.get? r = some '\n') ∧
        importStep c = (c.take r ++ newImport ++ c.drop r, true)) := by
  constructor
  · intro hnone
    have hfil : matchingStarts c = [] := by
      unfold matchingStarts
      rw [List.filter_eq_nil]
      intro p hp
      simp [hnone p hp]
    unfold importStep lastImportStart
    rw [hfil]
    simp [hsym]
  · intro p hp hok
    have hmem : p ∈ matchingStarts c := by
      unfold matchingStarts
      rw [List.mem_filter]
      exact ⟨hp, by simp [hok]⟩
    have hne : matchingStarts c ≠ [] := fun h => by rw [h] at hmem; cases hmem
    cases hlast : (matchingStarts c).getLast? with
    | none => exact absurd (List.getLast?_eq_none.mp hlast) hne
    | some q =>
    have hqmem : q ∈ matchingStarts c := List.mem_of_mem_getLast? hlast
    have hqls : q ∈ lineStarts c := (List.mem_filter.mp hqmem).1
    have hqok : importLineOk (lineAt c q) = true := by
      have := (List.mem_filter.mp hqmem).2
      simpa using this
    have hsorted : (matchingStarts c).Pairwise (· < ·) :=
      (lineStarts_sorted c).sublist (List.filter_sublist _)
    have hmax : ∀ p', p' ∈ lineStarts c → importLineOk (lineAt c p') = true → p' ≤ q := by
      intro p' hp' hok'
      refine le_getLast_of_sorted _ q hsorted hlast p' ?_
      unfold matchingStarts
      rw [List.mem_filter]
      exact ⟨hp', by simp [hok']⟩
    have hq_le : q ≤ c.length := lineStarts_le_length hqls
    have he0_le : q + (lineAt c q).length ≤ c.length := by
      have := lineAt_length_le c q
      omega
    have hstep : importStep c = (c.take (importInsertPos c q) ++ newImport ++
        c.drop (importInsertPos c q), true) := by
      unfold importStep lastImportStart
      rw [hlast]
      simp [hsym]
    rcases dropWhile_nil_or_head (c.drop q) with hdw | ⟨t, hdw⟩
    · have hdrop : c.drop (q + (lineAt c q).length) = [] := by
        rw [drop_lineAt]; exact hdw
      have hlen0 : c.length - (q + (lineAt c q).length) = 0 := by
        have := congrArg List.length hdrop
        simpa using this
      have he0 : q + (lineAt c q).length = c.length := by omega
      have hr : importInsertPos c q = q + (lineAt c q).length := by
        unfold importInsertPos
        rw [hdrop]
        rfl
      refine ⟨q, importInsertPos c q, hlast, hqls, hqok, hmax, by omega, by omega,
        ?_, ?_, hstep⟩
      · intro k hk1 hk2; omega
      · left; omega
    · have hdrop : c.drop (q + (lineAt c q).length) = '\n' :: t := by
        rw [drop_lineAt]; exact hdw
      rcases goo_head_nl t with ⟨o, hgoo⟩
      have hr : importInsertPos c q = q + (lineAt c q).length + o := by
        unfold importInsertPos
        rw [hdrop, hgoo]
        rfl
      rcases goo_spec _ o hgoo with ⟨ho1, ho2, ho3⟩
      have hslen : ('\n' :: t).length = c.length - (q + (lineAt c q).length) := by
        rw [← hdrop]
        exact List.length_drop _ _
      refine ⟨q, importInsertPos c q, hlast, hqls, hqok, hmax, by omega, by omega,
        ?_, ?_, hstep⟩
      · intro k hk1 hk2
        rw [hr] at hk2
        rcases ho2 (k - (q + (lineAt c q).length)) (by omega) with ⟨ch, hch, hchw⟩
        refine ⟨ch, ?_, hchw⟩
        rw [← hch, ← hdrop]
        rw [List.get?_drop]
        congr 1
        omega
      · rcases ho3 with h3 | h3
        · left
          rw [hr, h3, hslen]
          omega
        · right
          rw [← h3, ← hdrop, List.get?_drop, hr]

/-- Counterexample to C6 as stated: in
`import a from \x27b\x27;\n\n\nX` the last (only) matching line ends at
position 18, yet the import is spliced at position 20 — after the blank
lines, at the last line boundary before `X` — not immediately after
the end of the matching line (neither at 18, before its newline, nor at
19, after it). -/
theorem C6_counterexample :
    importStep "import a from \x27b\x27;\n\n\nX".data ≠
      ("import a from \x27b\x27;\n\n\nX".data.take 18 ++ newImport ++
        "import a from \x27b\x27;\n\n\nX".data.drop 18, true) ∧
    importStep "import a from \x27b\x27;\n\n\nX".data ≠
      ("import a from \x27b\x27;\n\n\nX".data.take 19 ++ newImport ++
        "import a from \x27b\x27;\n\n\nX".data.drop 19, true) ∧
    importStep "import a from \x27b\x27;\n\n\nX".data =
      ("import a from \x27b\x27;\n\n\nX".data.take 20 ++ newImport ++
        "import a from \x27b\x27;\n\n\nX".data.drop 20, true) := by
  refine ⟨by decide, by decide, by decide⟩

/-- Witness for the amended C6 at the counterexample content. -/
theorem C6_import_splice_witness :
    ∃ q r, lastImportStart "import a from \x27b\x27;\n\n\nX".data = some q ∧
      q ∈ lineStarts "import a from \x27b\x27;\n\n\nX".data ∧
      importLineOk (lineAt "import a from \x27b\x27;\n\n\nX".data q) = true ∧
      (∀ p', p' ∈ lineStarts "import a from \x27b\x27;\n\n\nX".data →
        importLineOk (lineAt "import a from \x27b\x27;\n\n\nX".data p') = true → p' ≤ q) ∧
      q + (lineAt "import a from \x27b\x27;\n\n\nX".data q).length ≤ r ∧
      r ≤ "import a from \x27b\x27;\n\n\nX".data.length ∧
      (∀ k, q + (lineAt "import a from \x27b\x27;\n\n\nX".data q).length ≤ k → k < r →
        ∃ ch, "import a from \x27b\x27;\n\n\nX".data.get? k = some ch ∧ isWs ch = true) ∧
      (r = "import a from \x27b\x27;\n\n\nX".data.length ∨
        "import a from \x27b\x27;\n\n\nX".data.get? r = some '\n') ∧
      importStep "import a from \x27b\x27;\n\n\nX".data =
        ("import a from \x27b\x27;\n\n\nX".data.take r ++ newImport ++
          "import a from \x27b\x27;\n\n\nX".data.drop r, true) :=
  (C6_import_splice "import a from \x27b\x27;\n\n\nX".data (by decide)).2
    0 (by decide) (by decide)

theorem applyRL_cases (path c : List Char) :
    applyRL path c = (false, "Already updated", c) ∨
    applyRL path c = (true, "Updated (" ++ rlConfig path ++ ")",
      subRun (rlConfig path).data (importStep c).1) ∨
    applyRL path c = (false, "No changes needed", c) := by
  unfold applyRL
  by_cases hm : occurs marker c = true
  · left; simp [hm]
  · by_cases hch : ((importStep c).2 || subChanged (rlConfig path).data (importStep c).1) = true
    · right; left
      simp only [hm, Bool.false_eq_true, if_false, hch, if_true]
    · right; right
      simp only [hm, Bool.false_eq_true, if_false, hch, if_false]

/-- C8: a content with no handler-signature match anywhere and no line
matching the import pattern comes back unchanged — `changed = false`,
content byte-identical — and the file's processing performs no write at
all (no backup, no overwrite). -/
theorem C8_noop_frame (p c : List Char)
    (hnomatch : ∀ i, i < c.length → tryMatch (c.drop i) = none)
    (hnoimp : ∀ q ∈ lineStarts c, importLineOk (lineAt c q) = false) :
    (applyRL p c).1 = false ∧ (applyRL p c).2.2 = c ∧
    processFile ⟨p, .ok c⟩ = (false, (applyRL p c).2.1, []) := by
  have himp : importStep c = (c, false) := by
    unfold importStep
    by_cases hs : occurs symApply c = true
    · simp [hs]
    · have hfil : matchingStarts c = [] := by
        unfold matchingStarts
        rw [List.filter_eq_nil_iff]
        intro q hq
        simp [hnoimp q hq]
      unfold lastImportStart
      rw [hfil]
      simp [hs]
  have hscan := subRun_no_match ((rlConfig p).data) c hnomatch
  have happ : (applyRL p c).1 = false ∧ (applyRL p c).2.2 = c := by
    unfold applyRL
    by_cases hm : occurs marker c = true
    · simp [hm]
    · simp only [hm, Bool.false_eq_true, if_false, himp, hscan.1, hscan.2]
      simp
  refine ⟨happ.1, happ.2, ?_⟩
  unfold processFile
  simp only []
  rw [if_neg (by rw [happ.1]; simp), happ.1]

/-- Witness for C8 on plain text with neither handlers nor imports. -/
theorem C8_noop_frame_witness :
    (applyRL "p/route.ts".data "hello world\n".data).1 = false ∧
    (applyRL "p/route.ts".data "hello world\n".data).2.2 = "hello world\n".data ∧
    processFile ⟨"p/route.ts".data, .ok "hello world\n".data⟩ =
      (false, (applyRL "p/route.ts".data "hello world\n".data).2.1, []) :=
  C8_noop_frame "p/route.ts".data "hello world\n".data
    (by decide) (by decide)

theorem takeWhile_append_all {pr : Char → Bool} {a : List Char}
    (ha : ∀ x ∈ a, pr x = true) (b : List Char) :
    (a ++ b).takeWhile pr = a ++ b.takeWhile pr := by
  induction a with
  | nil => simp
  | cons x t ih =>
    have hx : pr x = true := ha x (by simp)
    simp only [List.cons_append, List.takeWhile_cons_of_pos hx]
    rw [ih (fun y hy => ha y (by simp [hy]))]

theorem dropWhile_append_all {pr : Char → Bool} {a : List Char}
    (ha : ∀ x ∈ a, pr x = true) (b : List Char) :
    (a ++ b).dropWhile pr = b.dropWhile pr := by
  induction a with
  | nil => simp
  | cons x t ih =>
    have hx : pr x = true := ha x (by simp)
    simp only [List.cons_append, List.dropWhile_cons_of_pos hx]
    exact ih (fun y hy => ha y (by simp [hy]))

/-- On a path ending in `route.ts`, `with_suffix` with `.ts.bak` appends
`.bak` to the original filename. -/
theorem backupPath_route (q : List Char) :
    backupPath (q ++ "route.ts".data) = q ++ "route.ts".data ++ ".bak".data := by
  unfold backupPath
  have hrev : (q ++ "route.ts".data).reverse = "st.etuor".data ++ q.reverse := by
    rw [List.reverse_append]
    congr 1
  simp only [hrev]
  have hslash : ∀ x ∈ "st.etuor".data, (!(x == '/')) = true := by decide
  have hname : ("st.etuor".data ++ q.reverse).takeWhile (fun c => !(c == '/')) =
      "st.etuor".data ++ q.reverse.takeWhile (fun c => !(c == '/')) :=
    takeWhile_append_all hslash _
  rw [hname]
  have hidx : (("st.etuor".data ++ q.reverse.takeWhile (fun c => !(c == '/')))).findIdx?
      (fun c => c == '.') = some 2 := rfl
  rw [hidx]
  simp only []
  have hlen : 2 + 1 <
      ("st.etuor".data ++ q.reverse.takeWhile (fun c => !(c == '/'))).length := by
    rw [List.length_append]
    have : ("st.etuor".data).length = 8 := by decide
    omega
  rw [if_pos hlen]
  have hdrop3 : ("st.etuor".data ++ q.reverse.takeWhile (fun c => !(c == '/'))).drop 3 =
      "etuor".data ++ q.reverse.takeWhile (fun c => !(c == '/')) := rfl
  rw [hdrop3]
  have hlen8 : ("st.etuor".data ++ q.reverse.takeWhile (fun c => !(c == '/'))).length =
      8 + (q.reverse.takeWhile (fun c => !(c == '/'))).length := by
    rw [List.length_append]
    congr 1
  rw [hlen8]
  have hdropname : ("st.etuor".data ++ q.reverse).drop
      (8 + (q.reverse.takeWhile (fun c => !(c == '/'))).length) =
      q.reverse.dropWhile (fun c => !(c == '/')) := by
    have h8 : ("st.etuor".data).length = 8 := by decide
    rw [show (8 : Nat) + (q.reverse.takeWhile (fun c => !(c == '/'))).length =
      ("st.etuor".data).length + (q.reverse.takeWhile (fun c => !(c == '/'))).length
      from by rw [h8], List.drop_append]
    have hd := List.drop_left (q.reverse.takeWhile (fun c => !(c == '/')))
      (q.reverse.dropWhile (fun c => !(c == '/')))
    rw [List.takeWhile_append_dropWhile] at hd
    exact hd
  rw [hdropname]
  have hjoin : "etuor".data ++ q.reverse.takeWhile (fun c => !(c == '/')) ++
      q.reverse.dropWhile (fun c => !(c == '/')) = "etuor".data ++ q.reverse := by
    rw [List.append_assoc, List.takeWhile_append_dropWhile]
  rw [List.append_assoc, hjoin, ← List.append_assoc]
  rw [List.reverse_append, List.reverse_append, List.reverse_reverse]
  simp only [List.append_assoc]
  congr 1

/-- C7: whenever a file whose path ends in `route.ts` is reported as
updated, its processing writes exactly two artifacts, in order: first the
backup at the sibling path `original + ".bak"`, holding the file's
pre-run content, then the patched file itself. -/
theorem C7_backup_before_overwrite (q c : List Char)
    (h : (processFile ⟨q ++ "route.ts".data, .ok c⟩).1 = true) :
    processFile ⟨q ++ "route.ts".data, .ok c⟩ =
      (true, (applyRL (q ++ "route.ts".data) c).2.1,
       [(q ++ "route.ts".data ++ ".bak".data, c),
        (q ++ "route.ts".data, (applyRL (q ++ "route.ts".data) c).2.2)]) := by
  unfold processFile at h ⊢
  simp only [] at h ⊢
  by_cases hc : (applyRL (q ++ "route.ts".data) c).1 = true
  · rw [if_pos hc] at h ⊢
    rw [backupPath_route]
  · rw [if_neg hc] at h
    exact absurd h hc

/-- Witness for C7 on a concrete unguarded handler file. -/
theorem C7_backup_before_overwrite_witness :
    processFile ⟨"app/api/x/".data ++ "route.ts".data,
        .ok "export async function GET(request: NextRequest) \x7b\n\x7d\n".data⟩ =
      (true,
       (applyRL ("app/api/x/".data ++ "route.ts".data)
         "export async function GET(request: NextRequest) \x7b\n\x7d\n".data).2.1,
       [("app/api/x/".data ++ "route.ts".data ++ ".bak".data,
         "export async function GET(request: NextRequest) \x7b\n\x7d\n".data),
        ("app/api/x/".data ++ "route.ts".data,
         (applyRL ("app/api/x/".data ++ "route.ts".data)
           "export async function GET(request: NextRequest) \x7b\n\x7d\n".data).2.2)]) :=
  C7_backup_before_overwrite "app/api/x/".data
    "export async function GET(request: NextRequest) \x7b\n\x7d\n".data (by decide)

theorem ne_status_no_changes (x : String) : "Updated (" ++ x ++ ")" ≠ "No changes needed" := by
  intro h
  have h2 := congrArg String.data h
  rw [String.data_append, String.data_append] at h2
  have h3 := congrArg List.head? h2
  rw [show ("Updated (".data ++ x.data ++ ")".data).head? = some 'U' from rfl] at h3
  rw [show ("No changes needed".data).head? = some 'N' from rfl] at h3
  exact absurd h3 (by decide)

theorem ne_status_already (x : String) : "Updated (" ++ x ++ ")" ≠ "Already updated" := by
  intro h
  have h2 := congrArg String.data h
  rw [String.data_append, String.data_append] at h2
  have h3 := congrArg List.head? h2
  rw [show ("Updated (".data ++ x.data ++ ")".data).head? = some 'U' from rfl] at h3
  rw [show ("Already updated".data).head? = some 'A' from rfl] at h3
  exact absurd h3 (by decide)

/-- C4: the batch is total and isolating — the three counters always
partition the whole candidate list (the summary is reached whatever the
per-file outcomes), and a file whose read raises contributes exactly a
`changed = false`, status `"Error: <message>"`, no-write outcome; the
remaining files are processed unaffected. -/
theorem C4_failure_isolation (files : List FileEntry) :
    (runCounts files).1 + (runCounts files).2.1 + (runCounts files).2.2 = files.length ∧
    ∀ f ∈ files, ∀ e, f.read = .error e →
      processFile f = (false, "Error: " ++ e, []) := by
  constructor
  · induction files with
    | nil => rfl
    | cons f fs ih =>
      simp only [runCounts, List.length_cons]
      split_ifs with h1 h2 <;> simp only [] <;> omega
  · intro f hf e he
    unfold processFile
    rw [he]

/-- Witness for C4: a single raising file yields one classified outcome
and the converted error status. -/
theorem C4_failure_isolation_witness :
    (runCounts [⟨"a/route.ts".data, .error "boom"⟩]).1 +
      (runCounts [⟨"a/route.ts".data, .error "boom"⟩]).2.1 +
      (runCounts [⟨"a/route.ts".data, .error "boom"⟩]).2.2 = 1 ∧
    processFile ⟨"a/route.ts".data, .error "boom"⟩ = (false, "Error: " ++ "boom", []) :=
  ⟨(C4_failure_isolation [⟨"a/route.ts".data, .error "boom"⟩]).1,
   (C4_failure_isolation [⟨"a/route.ts".data, .error "boom"⟩]).2
     ⟨"a/route.ts".data, .error "boom"⟩ (List.Mem.head _) "boom" rfl⟩

/-- Counterexample to C3 as stated: one readable file whose content is
empty raises nothing, yet the run reports one error (a "No changes
needed" outcome lands in the error tally, not the skip tally). -/
theorem C3_counterexample :
    runCounts [⟨"a/route.ts".data, .ok []⟩] = (0, 0, 1) ∧
    List.countP raisesB [⟨"a/route.ts".data, .ok []⟩] = 0 ∧
    processFile ⟨"a/route.ts".data, .ok []⟩ = (false, "No changes needed", []) :=
  ⟨by decide, by decide, by decide⟩

/-- C3 (amended): `main` counts as skips only results whose message
contains "Already updated"; a "No changes needed" outcome falls into the
`else` branch and is counted as an error.  Hence (provided no exception
message itself contains "Already updated") the final error count equals
the number of raising files plus the number of no-change files, and the
skip count counts exactly the already-updated files. -/
theorem C3_error_tally (files : List FileEntry)
    (hmsg : ∀ f ∈ files, ∀ e, f.read = .error e →
      occurs "Already updated".data ("Error: " ++ e).data = false) :
    (runCounts files).2.2 = files.countP raisesB +
      files.countP (fun f => !raisesB f && ((processFile f).2.1 == "No changes needed")) ∧
    (runCounts files).2.1 =
      files.countP (fun f => !raisesB f && ((processFile f).2.1 == "Already updated")) := by
  induction files with
  | nil => exact ⟨rfl, rfl⟩
  | cons f fs ih =>
    rcases ih (fun g hg => hmsg g (List.mem_cons_of_mem f hg)) with ⟨ih1, ih2⟩
    cases hread : f.read with
    | error e =>
      have hpf : processFile f = (false, "Error: " ++ e, []) := by
        unfold processFile
        rw [hread]
      have hocc := hmsg f (List.Mem.head _) e hread
      have hraise : raisesB f = true := by unfold raisesB; rw [hread]
      constructor
      · simp only [runCounts, hpf, List.countP_cons, hraise, hocc]
        simp only [Bool.false_eq_true, if_false, Bool.not_true, Bool.false_and]
        simp [ih1]
        omega
      · simp only [runCounts, hpf, List.countP_cons, hraise, hocc]
        simp only [Bool.false_eq_true, if_false, Bool.not_true, Bool.false_and]
        simp [ih2]
    | ok c =>
      have hraise : raisesB f = false := by unfold raisesB; rw [hread]
      have hpf : processFile f = ((applyRL f.path c).1, (applyRL f.path c).2.1,
          if (applyRL f.path c).1 then
            [(backupPath f.path, c), (f.path, (applyRL f.path c).2.2)] else []) := by
        unfold processFile
        rw [hread]
        simp only []
        by_cases h1 : (applyRL f.path c).1 = true
        · rw [if_pos h1, if_pos h1, h1]
        · rw [if_neg h1, if_neg h1]
      rcases applyRL_cases f.path c with hca | hca | hca
      · have hst : (processFile f).2.1 = "Already updated" := by rw [hpf, hca]
        have hch : (processFile f).1 = false := by rw [hpf, hca]
        constructor
        · simp only [runCounts, List.countP_cons, hraise, hch, hst]
          simp only [Bool.false_eq_true, if_false, Bool.not_false, Bool.true_and]
          rw [if_pos (by decide : occurs "Already updated".data
            ("Already updated" : String).data = true)]
          simp [ih1]
        · simp only [runCounts, List.countP_cons, hraise, hch, hst]
          simp only [Bool.false_eq_true, if_false, Bool.not_false, Bool.true_and]
          rw [if_pos (by decide : occurs "Already updated".data
            ("Already updated" : String).data = true)]
          simp [ih2]
      · have hst : (processFile f).2.1 = "Updated (" ++ rlConfig f.path ++ ")" := by
          rw [hpf, hca]
        have hch : (processFile f).1 = true := by rw [hpf, hca]
        constructor
        · simp only [runCounts, List.countP_cons, hraise, hch, hst]
          simp only [Bool.not_false, Bool.true_and, if_true]
          rw [show (("Updated (" ++ rlConfig f.path ++ ")" : String) ==
            "No changes needed") = false from
            beq_eq_false_iff_ne.mpr (ne_status_no_changes _)]
          simp [ih1]
        · simp only [runCounts, List.countP_cons, hraise, hch, hst]
          simp only [Bool.not_false, Bool.true_and, if_true]
          rw [show (("Updated (" ++ rlConfig f.path ++ ")" : String) ==
            "Already updated") = false from
            beq_eq_false_iff_ne.mpr (ne_status_already _)]
          simp [ih2]
      · have hst : (processFile f).2.1 = "No changes needed" := by rw [hpf, hca]
        have hch : (processFile f).1 = false := by rw [hpf, hca]
        constructor
        · simp only [runCounts, List.countP_cons, hraise, hch, hst]
          simp only [Bool.false_eq_true, if_false, Bool.not_false, Bool.true_and]
          rw [if_neg (by decide : ¬ occurs "Already updated".data
            ("No changes needed" : String).data = true)]
          simp [ih1]
          omega
        · simp only [runCounts, List.countP_cons, hraise, hch, hst]
          simp only [Bool.false_eq_true, if_false, Bool.not_false, Bool.true_and]
          rw [if_neg (by decide : ¬ occurs "Already updated".data
            ("No changes needed" : String).data = true)]
          simp [ih2]

/-- Witness for the amended C3: one raising file plus one no-change file
gives two errors and no skip. -/
theorem C3_error_tally_witness :
    (runCounts [⟨"a/route.ts".data, .error "boom"⟩, ⟨"b/route.ts".data, .ok []⟩]).2.2 =
      List.countP raisesB
        [⟨"a/route.ts".data, .error "boom"⟩, ⟨"b/route.ts".data, .ok []⟩] +
      List.countP (fun f => !raisesB f && ((processFile f).2.1 == "No changes needed"))
        [⟨"a/route.ts".data, .error "boom"⟩, ⟨"b/route.ts".data, .ok []⟩] ∧
    (runCounts [⟨"a/route.ts".data, .error "boom"⟩, ⟨"b/route.ts".data, .ok []⟩]).2.1 =
      List.countP (fun f => !raisesB f && ((processFile f).2.1 == "Already updated"))
        [⟨"a/route.ts".data, .error "boom"⟩, ⟨"b/route.ts".data, .ok []⟩] :=
  C3_error_tally [⟨"a/route.ts".data, .error "boom"⟩, ⟨"b/route.ts".data, .ok []⟩]
    (by
      intro f hf e he
      rcases List.mem_cons.mp hf with h | h
      · subst h
        simp only [Except.error.injEq] at he
        subst he
        decide
      · rcases List.mem_cons.mp h with h2 | h2
        · subst h2
          simp at he
        · cases h2)

theorem Ins.append_left {sn t t' : List Char} (m : List Char)
    (h : Ins sn t t') : Ins sn (m ++ t) (m ++ t') := by
  induction m with
  | nil => simpa using h
  | cons c u ih => exact Ins.cons c ih

theorem MatchShape.split_brace {m : List Char} (hm : MatchShape m) :
    ∃ A, m = A ++ ['\x7b'] := by
  obtain ⟨v, w1, w2, w3, mid, _, _, _, _, _, he⟩ := hm
  exact ⟨litExport ++ v ++ w1 ++ "(".data ++ w2 ++ "request:".data ++
    w3 ++ "NextRequest".data ++ mid, by simp [he]⟩

theorem scanF_ins (cfg : List Char) :
    ∀ f s, s.length ≤ f → Ins (snippet cfg) s (scanF cfg f s) := by
  intro f
  induction f with
  | zero =>
    intro s hf
    have : s = [] := List.length_eq_zero.mp (Nat.le_zero.mp hf)
    subst this
    exact Ins.nil
  | succ f ih =>
    intro s hf
    cases s with
    | nil => exact Ins.nil
    | cons c t =>
      simp only [scanF]
      cases htm : tryMatch (c :: t) with
      | none => exact Ins.cons c (ih t (by simp at hf; omega))
      | some p =>
        obtain ⟨m, rest⟩ := p
        rcases tryMatch_some_shape htm with ⟨hshape, hdec⟩
        have hlt : rest.length < (c :: t).length := rest_length_lt hdec hshape.ne_nil
        have hrf : rest.length ≤ f := by simp at hf; simp at hlt; omega
        rcases hshape.split_brace with ⟨A, hA⟩
        simp only []
        by_cases hsym : hasSym (rest.take 300) = true
        · rw [if_pos hsym]
          rw [hdec]
          exact Ins.append_left m (ih rest hrf)
        · rw [if_neg hsym]
          rw [hdec, hA]
          have h1 : (A ++ ['\x7b']) ++ rest = A ++ ('\x7b' :: rest) := by simp
          have h2 : (A ++ ['\x7b']) ++ snippet cfg ++ scanF cfg f rest =
              A ++ ('\x7b' :: (snippet cfg ++ scanF cfg f rest)) := by simp
          rw [h1, h2]
          exact Ins.append_left A (Ins.ins (ih rest hrf))

theorem subRun_ins (cfg s : List Char) : Ins (snippet cfg) s (subRun cfg s) :=
  scanF_ins cfg s.length s le_rfl

theorem Ins_no_brace_eq {sn t t' : List Char} (h : Ins sn t t')
    (hb : '\x7b' ∉ t) : t' = t := by
  induction h with
  | nil => rfl
  | cons c h ih =>
    rw [ih (fun hx => hb (List.mem_cons_of_mem c hx))]
  | ins h ih => exact absurd (List.Mem.head _) hb

theorem cfgOk_mem {cfg : List Char} {x : Char} (h : cfgOk cfg = true) (hx : x ∈ cfg) :
    x.isUpper = true ∨ x = '.' ∨ x = '_' := by
  have := List.all_eq_true.mp h x hx
  rcases Bool.or_eq_true_iff.mp this with h1 | h1
  · rcases Bool.or_eq_true_iff.mp h1 with h2 | h2
    · exact Or.inl h2
    · exact Or.inr (Or.inl (eq_of_beq h2))
  · exact Or.inr (Or.inr (eq_of_beq h1))

theorem cfgOk_getRateLimitAux (L : List (List (List Char) × String)) (s : List Char)
    (hL : ∀ r ∈ L, cfgOk r.2.data = true)
    (hd : cfgOk ("RATE_LIMITS.DEFAULT" : String).data = true) :
    cfgOk (getRateLimitAux L s).data = true := by
  induction L with
  | nil => exact hd
  | cons r rest ih =>
    obtain ⟨pat, cfg⟩ := r
    simp only [getRateLimitAux]
    by_cases hm : patMatch pat s = true
    · rw [if_pos hm]
      exact hL (pat, cfg) (List.Mem.head _)
    · rw [if_neg hm]
      exact ih (fun r hr => hL r (List.mem_cons_of_mem _ hr))

theorem cfgOk_rlConfig (path : List Char) : cfgOk (rlConfig path).data = true := by
  unfold rlConfig get_rate_limit_config
  refine cfgOk_getRateLimitAux _ _ ?_ (by decide)
  intro r hr
  fin_cases hr <;> decide

theorem mem_snippet {cfg : List Char} {x : Char} :
    x ∈ snippet cfg ↔ x ∈ snipA ∨ x ∈ cfg ∨ x ∈ snipB := by
  simp [snippet]

theorem snippet_no_x {cfg : List Char} (h : cfgOk cfg = true) : 'x' ∉ snippet cfg := by
  intro hx
  rcases mem_snippet.mp hx with h1 | h1 | h1
  · exact absurd h1 (by decide)
  · rcases cfgOk_mem h h1 with h2 | h2 | h2 <;> revert h2 <;> decide
  · exact absurd h1 (by decide)

theorem snippet_no_at {cfg : List Char} (h : cfgOk cfg = true) : '@' ∉ snippet cfg := by
  intro hx
  rcases mem_snippet.mp hx with h1 | h1 | h1
  · exact absurd h1 (by decide)
  · rcases cfgOk_mem h h1 with h2 | h2 | h2 <;> revert h2 <;> decide
  · exact absurd h1 (by decide)

theorem snippet_head (cfg : List Char) : (snippet cfg).head? = some '\n' := rfl

theorem snippet_ne_nil (cfg : List Char) : snippet cfg ≠ [] := by
  unfold snippet snipA
  intro h
  simp at h

theorem snippet_getLast (cfg : List Char) : (snippet cfg).getLast? = some '\n' := by
  unfold snippet
  rw [show snipA ++ cfg ++ snipB = (snipA ++ cfg) ++ snipB from by simp]
  rw [List.getLast?_append, show snipB.getLast? = some '\n' from by decide]
  rfl

theorem sim_dropPre {sn : List Char} :
    ∀ {a s s' : List Char}, '\x7b' ∉ a → Ins sn s s' →
      (dropPre a s = none ∧ dropPre a s' = none) ∨
      (∃ t t', dropPre a s = some t ∧ dropPre a s' = some t' ∧ Ins sn t t') := by
  intro a
  induction a with
  | nil =>
    intro s s' _ h
    right
    exact ⟨s, s', rfl, rfl, h⟩
  | cons x as ih =>
    intro s s' hb h
    cases h with
    | nil => left; exact ⟨rfl, rfl⟩
    | cons c h' =>
      by_cases hx : x = c
      · subst hx
        have hb' : '\x7b' ∉ as := fun hh => hb (List.mem_cons_of_mem _ hh)
        rcases ih hb' h' with ⟨h1, h2⟩ | ⟨t1, t1', h1, h2, h3⟩
        · left
          constructor <;> simp [dropPre, h1, h2]
        · right
          exact ⟨t1, t1', by simp [dropPre, h1], by simp [dropPre, h2], h3⟩
      · left
        constructor <;> simp [dropPre, hx]
    | ins h' =>
      have hx : x ≠ '\x7b' := fun hh => hb (hh ▸ List.Mem.head _)
      left
      constructor <;> simp [dropPre, hx]

theorem sim_span {sn : List Char} {s s' : List Char} (h : Ins sn s s') :
    s'.takeWhile isWs = s.takeWhile isWs ∧
    Ins sn (s.dropWhile isWs) (s'.dropWhile isWs) := by
  induction h with
  | nil => exact ⟨rfl, Ins.nil⟩
  | cons c h ih =>
    by_cases hw : isWs c = true
    · rw [List.takeWhile_cons_of_pos hw, List.takeWhile_cons_of_pos hw,
        List.dropWhile_cons_of_pos hw, List.dropWhile_cons_of_pos hw]
      exact ⟨by rw [ih.1], ih.2⟩
    · rw [List.takeWhile_cons_of_neg (by simp [hw]), List.takeWhile_cons_of_neg (by simp [hw]),
        List.dropWhile_cons_of_neg (by simp [hw]), List.dropWhile_cons_of_neg (by simp [hw])]
      exact ⟨rfl, Ins.cons c h⟩
  | ins h ih =>
    have hw : ¬ isWs '\x7b' = true := by decide
    rw [List.takeWhile_cons_of_neg hw, List.takeWhile_cons_of_neg hw,
      List.dropWhile_cons_of_neg hw, List.dropWhile_cons_of_neg hw]
    exact ⟨rfl, Ins.ins h⟩

theorem sim_matchAlt {sn : List Char} (vs : List (List Char))
    (hvs : ∀ v ∈ vs, '\x7b' ∉ v) {s s' : List Char} (h : Ins sn s s') :
    (matchAlt vs s = none ∧ matchAlt vs s' = none) ∨
    (∃ v t t', matchAlt vs s = some (v, t) ∧ matchAlt vs s' = some (v, t') ∧ Ins sn t t') := by
  induction vs with
  | nil => left; exact ⟨rfl, rfl⟩
  | cons v rest ih =>
    rcases sim_dropPre (hvs v (List.Mem.head _)) h with ⟨h1, h2⟩ | ⟨t, t', h1, h2, h3⟩
    · rcases ih (fun w hw => hvs w (List.Mem.tail _ hw)) with ⟨g1, g2⟩ | ⟨w, t, t', g1, g2, g3⟩
      · left
        constructor <;> simp [matchAlt, h1, h2, g1, g2]
      · right
        exact ⟨w, t, t', by simp [matchAlt, h1, g1], by simp [matchAlt, h2, g2], g3⟩
    · right
      exact ⟨v, t, t', by simp [matchAlt, h1], by simp [matchAlt, h2], h3⟩

theorem splitBrace_none_iff {s : List Char} : splitBrace s = none ↔ '\x7b' ∉ s := by
  induction s with
  | nil => simp [splitBrace]
  | cons c t ih =>
    by_cases hc : c = '\x7b'
    · subst hc
      simp [splitBrace]
    · have hceq : (c == '\x7b') = false := beq_eq_false_iff_ne.mpr hc
      simp only [splitBrace, hceq, Bool.false_eq_true, if_false]
      cases hs : splitBrace t with
      | none =>
        simp only []
        constructor
        · intro _
          intro hmem
          rcases List.mem_cons.mp hmem with h | h
          · exact hc h.symm
          · exact (ih.mp hs) h
        · intro _; trivial
      | some p =>
        obtain ⟨mid, rest⟩ := p
        simp only []
        constructor
        · intro h; cases h
        · intro hmem
          exfalso
          apply hmem
          rcases splitBrace_some hs with ⟨ht, _⟩
          refine List.mem_cons_of_mem c ?_
          rw [ht]
          exact List.mem_append_right mid (List.Mem.head _)

theorem tryMatch_none_ins {sn s s' : List Char} (hIns : Ins sn s s')
    (hnone : tryMatch s = none) : tryMatch s' = none := by
  unfold tryMatch at hnone ⊢
  rcases sim_dropPre (by decide : '\x7b' ∉ litExport) hIns with
    ⟨h1, h1'⟩ | ⟨s1, s1', h1, h1', hI1⟩
  · rw [h1']; rfl
  · rw [h1, Option.some_bind] at hnone
    rw [h1', Option.some_bind]
    rcases sim_matchAlt verbs (by decide) hI1 with ⟨h2, h2'⟩ | ⟨v, s2, s2', h2, h2', hI2⟩
    · rw [h2']; rfl
    · rw [h2, Option.some_bind] at hnone
      rw [h2', Option.some_bind]
      simp only [] at hnone ⊢
      have hsp1 := sim_span hI2
      rcases sim_dropPre (by decide : '\x7b' ∉ "(".data) hsp1.2 with
        ⟨h3, h3'⟩ | ⟨s4, s4', h3, h3', hI3⟩
      · rw [h3']; rfl
      · rw [h3, Option.some_bind] at hnone
        rw [h3', Option.some_bind]
        have hsp2 := sim_span hI3
        rcases sim_dropPre (by decide : '\x7b' ∉ "request:".data) hsp2.2 with
          ⟨h4, h4'⟩ | ⟨s6, s6', h4, h4', hI4⟩
        · rw [h4']; rfl
        · rw [h4, Option.some_bind] at hnone
          rw [h4', Option.some_bind]
          have hsp3 := sim_span hI4
          rcases sim_dropPre (by decide : '\x7b' ∉ "NextRequest".data) hsp3.2 with
            ⟨h5, h5'⟩ | ⟨s8, s8', h5, h5', hI5⟩
          · rw [h5']; rfl
          · rw [h5, Option.some_bind] at hnone
            rw [h5', Option.some_bind]
            cases hq : splitBrace s8 with
            | some p =>
              rw [hq, Option.some_bind] at hnone
              cases hnone
            | none =>
              have hnb : '\x7b' ∉ s8 := splitBrace_none_iff.mp hq
              have hs8 : s8' = s8 := Ins_no_brace_eq hI5 hnb
              rw [hs8, hq]
              rfl

theorem prefix_of_prefix_append {w a b : List Char} (h : w <+: a ++ b)
    (hl : w.length ≤ a.length) : w <+: a := by
  have ha : a <+: a ++ b := List.prefix_append a b
  exact List.prefix_of_prefix_length_le h ha hl

theorem prefix_append_split {w a b : List Char} (h : w <+: a ++ b) :
    w <+: a ∨ ∃ w₂, w = a ++ w₂ ∧ w₂ <+: b := by
  by_cases hl : w.length ≤ a.length
  · exact Or.inl (prefix_of_prefix_append h hl)
  · right
    have ha : a <+: w :=
      List.prefix_of_prefix_length_le (List.prefix_append a b) h (by omega)
    rcases ha with ⟨w₂, hw₂⟩
    refine ⟨w₂, hw₂.symm, ?_⟩
    rcases h with ⟨v, hv⟩
    rw [← hw₂] at hv
    rw [List.append_assoc] at hv
    have := List.append_cancel_left hv
    exact ⟨v, this⟩

theorem infix_append_split {w a b : List Char} (h : w <:+: a ++ b) :
    w <:+: a ∨ w <:+: b ∨
    ∃ w₁ w₂, w = w₁ ++ w₂ ∧ w₁ ≠ [] ∧ w₂ ≠ [] ∧ w₁ <:+ a ∧ w₂ <+: b := by
  induction a generalizing w with
  | nil =>
    right; left
    simpa using h
  | cons c a' ih =>
    rw [List.cons_append, List.infix_cons_iff] at h
    rcases h with h | h
    · cases w with
      | nil => exact Or.inl List.nil_infix
      | cons x w' =>
        rcases List.cons_prefix_cons.mp h with ⟨hx, hw'⟩
        subst hx
        rcases prefix_append_split hw' with h1 | ⟨w₂, hw₂, hpre⟩
        · left
          exact (List.cons_prefix_cons.mpr ⟨rfl, h1⟩).isInfix
        · cases w₂ with
          | nil =>
            left
            simp only [List.append_nil] at hw₂
            subst hw₂
            exact List.infix_refl _
          | cons y w₂' =>
            right; right
            refine ⟨x :: a', y :: w₂', ?_, by simp, by simp, List.suffix_refl _, hpre⟩
            rw [hw₂]
            simp
    · rcases ih h with h1 | h1 | ⟨w₁, w₂, hw, hne₁, hne₂, hsuf, hpre⟩
      · exact Or.inl (List.infix_cons h1)
      · exact Or.inr (Or.inl h1)
      · exact Or.inr (Or.inr ⟨w₁, w₂, hw, hne₁, hne₂, hsuf.trans (List.suffix_cons c a'), hpre⟩)

theorem ins_prefix_fwd {sn t t' w : List Char} (hIns : Ins sn t t')
    (hb : '\x7b' ∉ w) (h : w <+: t) : w <+: t' := by
  induction hIns generalizing w with
  | nil =>
    have : w = [] := List.prefix_nil.mp h
    subst this
    exact List.nil_prefix
  | cons c hI ih =>
    cases w with
    | nil => exact List.nil_prefix
    | cons x w' =>
      rcases List.cons_prefix_cons.mp h with ⟨hx, hw'⟩
      subst hx
      exact List.cons_prefix_cons.mpr
        ⟨rfl, ih (fun hh => hb (List.mem_cons_of_mem _ hh)) hw'⟩
  | ins hI ih =>
    cases w with
    | nil => exact List.nil_prefix
    | cons x w' =>
      rcases List.cons_prefix_cons.mp h with ⟨hx, hw'⟩
      subst hx
      exact absurd (List.Mem.head _) hb

theorem ins_infix_fwd {sn t t' w : List Char} (hIns : Ins sn t t')
    (hb : '\x7b' ∉ w) (h : w <:+: t) : w <:+: t' := by
  induction hIns generalizing w with
  | nil =>
    have : w = [] := by simpa using h
    subst this
    exact List.nil_infix
  | cons c hI ih =>
    rw [List.infix_cons_iff] at h
    rcases h with h | h
    · exact (ins_prefix_fwd (Ins.cons c hI) hb h).isInfix
    · exact List.infix_cons (ih hb h)
  | ins hI ih =>
    rw [List.infix_cons_iff] at h
    rcases h with h | h
    · exact (ins_prefix_fwd (Ins.ins hI) hb h).isInfix
    · have h1 : w <:+: _ := ih hb h
      have h2 : w <:+: sn ++ _ := h1.trans ((List.suffix_append sn _).isInfix)
      exact List.infix_cons h2

theorem getLast?_of_suffix {w s : List Char} (h : w <:+ s) (hne : w ≠ []) :
    s.getLast? = w.getLast? := by
  rcases h with ⟨u, hu⟩
  subst hu
  rw [List.getLast?_append]
  cases hw : w.getLast? with
  | none => exact absurd (List.getLast?_eq_none_iff.mp hw) hne
  | some a => rfl

theorem ins_prefix_back {sn t t' w : List Char} (hIns : Ins sn t t')
    (hsn : sn.head? = some '\n') (hn : '\n' ∉ w) (h : w <+: t') : w <+: t := by
  induction hIns generalizing w with
  | nil => exact h
  | cons c hI ih =>
    cases w with
    | nil => exact List.nil_prefix
    | cons x w' =>
      rcases List.cons_prefix_cons.mp h with ⟨hx, hw'⟩
      subst hx
      exact List.cons_prefix_cons.mpr
        ⟨rfl, ih (fun hh => hn (List.mem_cons_of_mem _ hh)) hw'⟩
  | ins hI ih =>
    cases w with
    | nil => exact List.nil_prefix
    | cons x w' =>
      rcases List.cons_prefix_cons.mp h with ⟨hx, hw'⟩
      subst hx
      cases w' with
      | nil => exact List.cons_prefix_cons.mpr ⟨rfl, List.nil_prefix⟩
      | cons y w'' =>
        exfalso
        cases hsnc : sn with
        | nil => rw [hsnc] at hsn; cases hsn
        | cons z sn₀ =>
          rw [hsnc] at hsn
          simp only [List.head?_cons, Option.some.injEq] at hsn
          rw [hsnc] at hw'
          rcases List.cons_prefix_cons.mp hw' with ⟨hy, _⟩
          subst hy
          exact hn (by rw [hsn]; exact List.mem_cons_of_mem _ (List.Mem.head _))

theorem ins_infix_back {sn t t' w : List Char} (hIns : Ins sn t t')
    (hh : sn.head? = some '\n') (hl : sn.getLast? = some '\n')
    (hn : '\n' ∉ w) (h : w <:+: t') : w <:+: t ∨ w <:+: sn := by
  induction hIns generalizing w with
  | nil => exact Or.inl h
  | cons c hI ih =>
    rw [List.infix_cons_iff] at h
    rcases h with h | h
    · exact Or.inl (ins_prefix_back (Ins.cons c hI) hh hn h).isInfix
    · rcases ih hn h with h1 | h1
      · exact Or.inl (List.infix_cons h1)
      · exact Or.inr h1
  | ins hI ih =>
    rw [List.infix_cons_iff] at h
    rcases h with h | h
    · exact Or.inl (ins_prefix_back (Ins.ins hI) hh hn h).isInfix
    · rcases infix_append_split h with h1 | h1 | ⟨w₁, w₂, hw, hne₁, hne₂, hsuf, hpre⟩
      · exact Or.inr h1
      · rcases ih hn h1 with h2 | h2
        · exact Or.inl (List.infix_cons h2)
        · exact Or.inr h2
      · exfalso
        have hg : w₁.getLast? = some '\n' := by
          rw [← getLast?_of_suffix hsuf hne₁, hl]
        have hmem : '\n' ∈ w₁ := List.mem_of_mem_getLast? hg
        exact hn (by rw [hw]; exact List.mem_append_left _ hmem)

theorem occ_take {w s : List Char} {j n : Nat} (h : w <+: s.drop j)
    (hn : j + w.length ≤ n) : w <:+: s.take n := by
  rcases h with ⟨u, hu⟩
  have hj : j ≤ n := by omega
  have h1 : s.take n = s.take j ++ (s.drop j).take (n - j) := by
    rw [← List.take_add, Nat.add_sub_cancel' hj]
  rw [h1, ← hu]
  have h2 : (w ++ u).take (n - j) = w ++ u.take (n - j - w.length) := by
    rw [List.take_append_eq_append_take, List.take_all_of_le (by omega)]
  rw [h2]
  exact ⟨s.take j, u.take (n - j - w.length), by simp⟩

theorem occ_of_take {w s : List Char} {n : Nat} (h : w <:+: s.take n) :
    ∃ j, w <+: s.drop j ∧ j + w.length ≤ n := by
  rcases h with ⟨x, y, hxy⟩
  refine ⟨x.length, ?_, ?_⟩
  · have h1 : (s.take n).drop x.length = w ++ y := by
      rw [← hxy, List.append_assoc]
      exact List.drop_left x (w ++ y)
    have h2 : (s.take n).drop x.length = (s.drop x.length).take (n - x.length) := by
      rw [List.drop_take]
    have h3 : w <+: (s.drop x.length).take (n - x.length) := by
      rw [← h2, h1]
      exact List.prefix_append w y
    exact h3.trans ( List.take_prefix _ _)
  · have := congrArg List.length hxy
    simp only [List.length_append, List.length_take] at this
    omega

theorem hasSym_elim {s : List Char} (h : hasSym (s.take 300) = true) :
    ∃ w j, (w = symApply ∨ w = symResp) ∧ w <+: s.drop j ∧ j + w.length ≤ 300 := by
  unfold hasSym at h
  rcases Bool.or_eq_true_iff.mp h with h1 | h1
  · rcases occ_of_take (occurs_iff.mp h1) with ⟨j, hj1, hj2⟩
    exact ⟨symApply, j, Or.inl rfl, hj1, hj2⟩
  · rcases occ_of_take (occurs_iff.mp h1) with ⟨j, hj1, hj2⟩
    exact ⟨symResp, j, Or.inr rfl, hj1, hj2⟩

theorem hasSym_intro {w s : List Char} {j : Nat}
    (hw : w = symApply ∨ w = symResp) (h : w <+: s.drop j)
    (hn : j + w.length ≤ 300) : hasSym (s.take 300) = true := by
  have hocc : w <:+: s.take 300 := occ_take h hn
  unfold hasSym
  rcases hw with rfl | rfl
  · rw [Bool.or_eq_true_iff]
    exact Or.inl (occurs_iff.mpr hocc)
  · rw [Bool.or_eq_true_iff]
    exact Or.inr (occurs_iff.mpr hocc)

theorem scanF_prefix_preserve (cfg : List Char) :
    ∀ f s w, s.length ≤ f → '\x7b' ∉ w → w <+: s → w <+: scanF cfg f s := by
  intro f
  induction f with
  | zero =>
    intro s w hf _ h
    have : s = [] := List.length_eq_zero.mp (Nat.le_zero.mp hf)
    subst this
    simpa [scanF] using h
  | succ f ih =>
    intro s w hf hb h
    cases s with
    | nil => simpa [scanF] using h
    | cons c t =>
      simp only [scanF]
      cases htm : tryMatch (c :: t) with
      | none =>
        cases w with
        | nil => exact List.nil_prefix
        | cons x w' =>
          rcases List.cons_prefix_cons.mp h with ⟨hx, hw'⟩
          subst hx
          exact List.cons_prefix_cons.mpr
            ⟨rfl, ih t w' (by simp at hf; omega) (fun hh => hb (List.mem_cons_of_mem _ hh)) hw'⟩
      | some p =>
        obtain ⟨m, rest⟩ := p
        rcases tryMatch_some_shape htm with ⟨hshape, hdec⟩
        simp only []
        by_cases hl : w.length ≤ m.length
        · have hwm : w <+: m := by
            rw [hdec] at h
            exact prefix_of_prefix_append h hl
          by_cases hsym : hasSym (rest.take 300) = true
          · rw [if_pos hsym]
            exact hwm.trans (List.prefix_append m _)
          · rw [if_neg hsym]
            have : w <+: m ++ (snippet cfg ++ scanF cfg f rest) :=
              hwm.trans (List.prefix_append m _)
            simpa using this
        · exfalso
          have hmw : m <+: w := by
            rw [hdec] at h
            exact List.prefix_of_prefix_length_le (List.prefix_append m rest) h (by omega)
          rcases hshape.split_brace with ⟨A, hA⟩
          have hbm : '\x7b' ∈ m := by
            rw [hA]
            exact List.mem_append_right A (List.Mem.head _)
          exact hb (hmw.subset hbm)

theorem drop_append_le {m X : List Char} {j : Nat} (hj : j ≤ m.length) :
    (m ++ X).drop j = m.drop j ++ X := by
  rw [List.drop_append_eq_append_drop, Nat.sub_eq_zero_of_le hj, List.drop_zero]

theorem drop_append_ge {m X : List Char} {j : Nat} (hj : m.length ≤ j) :
    (m ++ X).drop j = X.drop (j - m.length) := by
  rw [List.drop_append_eq_append_drop, List.drop_eq_nil_of_le hj, List.nil_append]

theorem scanF_window_preserve (cfg : List Char) :
    ∀ f s j w, s.length ≤ f → (w = symApply ∨ w = symResp) →
      w <+: s.drop j → j + w.length ≤ 300 → w <+: (scanF cfg f s).drop j := by
  intro f
  induction f with
  | zero =>
    intro s j w hf _ h _
    have : s = [] := List.length_eq_zero.mp (Nat.le_zero.mp hf)
    subst this
    simpa [scanF] using h
  | succ f ih =>
    intro s j w hf hw h hj
    have hbw : '\x7b' ∉ w := by
      rcases hw with rfl | rfl <;> decide
    cases s with
    | nil => simpa [scanF] using h
    | cons c t =>
      simp only [scanF]
      cases htm : tryMatch (c :: t) with
      | none =>
        cases j with
        | zero =>
          simp only [List.drop_zero] at h ⊢
          exact scanF_prefix_preserve cfg (f + 1) (c :: t) w hf hbw h
            |>.trans (by rw [scanF]; simp only [htm]; exact List.prefix_refl _)
        | succ j' =>
          simp only [List.drop_succ_cons] at h ⊢
          exact ih t j' w (by simp at hf; omega) hw h (by omega)
      | some p =>
        obtain ⟨m, rest⟩ := p
        rcases tryMatch_some_shape htm with ⟨hshape, hdec⟩
        simp only []
        rcases hshape.split_brace with ⟨A, hA⟩
        by_cases hcase1 : j + w.length ≤ m.length
        · have hjm : j ≤ m.length := by omega
          have hdropj : (c :: t).drop j = m.drop j ++ rest := by
            rw [hdec, drop_append_le hjm]
          rw [hdropj] at h
          have hwm : w <+: m.drop j := by
            refine prefix_of_prefix_append h ?_
            rw [List.length_drop]
            omega
          by_cases hsym : hasSym (rest.take 300) = true
          · rw [if_pos hsym, drop_append_le hjm]
            exact hwm.trans (List.prefix_append _ _)
          · rw [if_neg hsym, drop_append_le (by
              rw [List.length_append]; omega : j ≤ (m ++ snippet cfg).length)]
            have : m.drop j <+: (m ++ snippet cfg).drop j := by
              rw [drop_append_le hjm]
              exact List.prefix_append _ _
            exact (hwm.trans this).trans (List.prefix_append _ _)
        · by_cases hcase2 : m.length ≤ j
          · have hdropj : (c :: t).drop j = rest.drop (j - m.length) := by
              rw [hdec, drop_append_ge hcase2]
            rw [hdropj] at h
            by_cases hsym : hasSym (rest.take 300) = true
            · rw [if_pos hsym, drop_append_ge hcase2]
              have hlt : rest.length < (c :: t).length := rest_length_lt hdec hshape.ne_nil
              exact ih rest (j - m.length) w (by simp at hf; simp at hlt; omega) hw h
                (by omega)
            · exact absurd (hasSym_intro hw h (by omega)) hsym
          · exfalso
            push_neg at hcase1 hcase2
            have h1 : m.length - 1 - j < w.length := by omega
            rcases h with ⟨u, hu⟩
            have hg1 : w.get? (m.length - 1 - j) = ((c :: t).drop j).get? (m.length - 1 - j) := by
              rw [← hu, List.get?_append h1]
            have hg2 : ((c :: t).drop j).get? (m.length - 1 - j) =
                (c :: t).get? (m.length - 1) := by
              rw [List.get?_drop]
              congr 1
              omega
            have hg3 : (c :: t).get? (m.length - 1) = m.get? (m.length - 1) := by
              rw [hdec, List.get?_append (by
                have := hshape.ne_nil
                have : 0 < m.length := List.length_pos.mpr this
                omega)]
            have hg4 : m.get? (m.length - 1) = some '\x7b' := by
              rw [hA]
              have hAl : (A ++ ['\x7b']).length - 1 = A.length := by
                simp
              rw [hAl]
              exact List.get?_concat_length A '\x7b'
            have : '\x7b' ∈ w := by
              refine List.get?_mem (n := m.length - 1 - j) ?_
              rw [hg1, hg2, hg3, hg4]
            exact hbw this

theorem hasSym_scanF (cfg : List Char) (f : Nat) (s : List Char) (hf : s.length ≤ f)
    (h : hasSym (s.take 300) = true) : hasSym ((scanF cfg f s).take 300) = true := by
  rcases hasSym_elim h with ⟨w, j, hw, h1, h2⟩
  exact hasSym_intro hw (scanF_window_preserve cfg f s j w hf hw h1 h2) h2

theorem dropPre_none_iff {a s : List Char} : dropPre a s = none ↔ ¬ a <+: s := by
  constructor
  · intro h hpre
    rcases hpre with ⟨t, ht⟩
    rw [← ht, dropPre_append] at h
    cases h
  · intro h
    cases hd : dropPre a s with
    | none => rfl
    | some t =>
      exfalso
      exact h ⟨t, (dropPre_some hd).symm⟩

theorem tryMatch_none_of_no_lit {s : List Char} (h : ¬ litExport <+: s) :
    tryMatch s = none := by
  unfold tryMatch
  rw [dropPre_none_iff.mpr h]
  rfl

theorem snippet_drop_no_lit {cfg : List Char} (h : cfgOk cfg = true) :
    ∀ p, p < (snippet cfg).length → ∀ X, ¬ litExport <+: ((snippet cfg).drop p ++ X) := by
  intro p hp X hpre
  have hdne : (snippet cfg).drop p ≠ [] := by
    intro hnil
    have := congrArg List.length hnil
    simp only [List.length_drop] at this
    simp at this
    omega
  have hdsuf : (snippet cfg).drop p <:+ snippet cfg := List.drop_suffix _ _
  by_cases hl : litExport.length ≤ ((snippet cfg).drop p).length
  · have hld : litExport <+: (snippet cfg).drop p := prefix_of_prefix_append hpre hl
    have hinf : litExport <:+: snippet cfg := hld.isInfix.trans hdsuf.isInfix
    have hx : 'x' ∈ litExport := by decide
    exact snippet_no_x h (hinf.subset hx)
  · have hdl : (snippet cfg).drop p <+: litExport :=
      List.prefix_of_prefix_length_le (List.prefix_append _ _) hpre (by omega)
    have hlast : ((snippet cfg).drop p).getLast? = some '\n' := by
      rw [← getLast?_of_suffix hdsuf hdne, snippet_getLast]
    have hmem : '\n' ∈ (snippet cfg).drop p := List.mem_of_mem_getLast? hlast
    have : '\n' ∈ litExport := hdl.subset hmem
    exact absurd this (by decide)

theorem scanF_append_of_none (cfg : List Char) :
    ∀ (u : List Char) (f g : Nat) (t : List Char),
      (∀ p, p < u.length → tryMatch (u.drop p ++ t) = none) →
      (u ++ t).length ≤ f → t.length ≤ g →
      scanF cfg f (u ++ t) = u ++ scanF cfg g t ∧
      scanFc cfg f (u ++ t) = scanFc cfg g t := by
  intro u
  induction u with
  | nil =>
    intro f g t _ hf hg
    simp only [List.nil_append] at *
    exact ⟨scanF_stable cfg f g t hf hg, scanFc_stable cfg f g t hf hg⟩
  | cons c u' ih =>
    intro f g t hno hf hg
    cases f with
    | zero => simp at hf
    | succ f' =>
      have h0 : tryMatch (c :: (u' ++ t)) = none := by
        have := hno 0 (by simp)
        simpa using this
      have hno' : ∀ p, p < u'.length → tryMatch (u'.drop p ++ t) = none := by
        intro p hp
        have := hno (p + 1) (by simp; omega)
        simpa using this
      have hf' : (u' ++ t).length ≤ f' := by simp at hf ⊢; omega
      rcases ih f' g t hno' hf' hg with ⟨ih1, ih2⟩
      constructor
      · rw [List.cons_append]
        simp only [scanF, h0]
        rw [ih1]
        rfl
      · rw [List.cons_append]
        simp only [scanFc, h0]
        exact ih2

theorem scanF_snippet_append {cfg : List Char} (h : cfgOk cfg = true)
    (f g : Nat) (t : List Char) (hf : (snippet cfg ++ t).length ≤ f)
    (hg : t.length ≤ g) :
    scanF cfg f (snippet cfg ++ t) = snippet cfg ++ scanF cfg g t ∧
    scanFc cfg f (snippet cfg ++ t) = scanFc cfg g t := by
  refine scanF_append_of_none cfg (snippet cfg) f g t ?_ hf hg
  intro p hp
  exact tryMatch_none_of_no_lit (snippet_drop_no_lit h p hp t)

theorem hasSym_snippet_append (cfg X : List Char) :
    hasSym ((snippet cfg ++ X).take 300) = true := by
  refine hasSym_intro (w := symResp) (j := 38) (Or.inr rfl) ?_ (by decide)
  have harr : snippet cfg ++ X = snipA ++ (cfg ++ (snipB ++ X)) := by
    simp [snippet]
  rw [harr, drop_append_le (by decide : 38 ≤ snipA.length)]
  have hpre : symResp <+: snipA.drop 38 := by decide
  exact hpre.trans (List.prefix_append _ _)

theorem subRun_snippet_append {cfg : List Char} (h : cfgOk cfg = true) (t : List Char) :
    subRun cfg (snippet cfg ++ t) = snippet cfg ++ subRun cfg t ∧
    subChanged cfg (snippet cfg ++ t) = subChanged cfg t :=
  scanF_snippet_append h (snippet cfg ++ t).length t.length t le_rfl le_rfl

/-- The guard-insertion pass is idempotent: a second pass over its own
output changes nothing and reports no modification. -/
theorem subRun_idem {cfg : List Char} (h : cfgOk cfg = true) :
    ∀ (n : Nat) (s : List Char), s.length ≤ n →
      subRun cfg (subRun cfg s) = subRun cfg s ∧
      subChanged cfg (subRun cfg s) = false := by
  intro n
  induction n with
  | zero =>
    intro s hs
    have : s = [] := List.length_eq_zero.mp (Nat.le_zero.mp hs)
    subst this
    exact ⟨rfl, rfl⟩
  | succ n ih =>
    intro s hs
    cases s with
    | nil => exact ⟨rfl, rfl⟩
    | cons c t =>
      cases htm : tryMatch (c :: t) with
      | none =>
        rcases subRun_head_none cfg htm with ⟨h1, h2⟩
        have hIns : Ins (snippet cfg) (c :: t) (c :: subRun cfg t) :=
          Ins.cons c (subRun_ins cfg t)
        have htm' : tryMatch (c :: subRun cfg t) = none := tryMatch_none_ins hIns htm
        rcases subRun_head_none cfg htm' with ⟨h1', h2'⟩
        have ht : t.length ≤ n := by simp at hs; omega
        rcases ih t ht with ⟨ihA, ihB⟩
        rw [h1]
        exact ⟨by rw [h1', ihA], by rw [h2', ihB]⟩
      | some p =>
        obtain ⟨m, rest⟩ := p
        rcases tryMatch_some_shape htm with ⟨hshape, hdec⟩
        have hlt : rest.length < (c :: t).length := rest_length_lt hdec hshape.ne_nil
        have hr : rest.length ≤ n := by simp at hs; simp at hlt; omega
        rcases ih rest hr with ⟨ihA, ihB⟩
        by_cases hsym : hasSym (rest.take 300) = true
        · have e1 : subRun cfg (c :: t) = m ++ subRun cfg rest :=
            subRun_match_skip htm hsym
          have htm2 : tryMatch (m ++ subRun cfg rest) = some (m, subRun cfg rest) :=
            tryMatch_build hshape _
          have hsym2 : hasSym ((subRun cfg rest).take 300) = true :=
            hasSym_scanF cfg rest.length rest le_rfl hsym
          have e3 : subRun cfg (m ++ subRun cfg rest) =
              m ++ subRun cfg (subRun cfg rest) := subRun_match_skip htm2 hsym2
          have e4 : subChanged cfg (m ++ subRun cfg rest) =
              subChanged cfg (subRun cfg rest) := subChanged_match_skip htm2 hsym2
          rw [e1]
          exact ⟨by rw [e3, ihA], by rw [e4, ihB]⟩
        · have hsymf : hasSym (rest.take 300) = false := by
            simp only [Bool.not_eq_true] at hsym
            exact hsym
          have e1 : subRun cfg (c :: t) = m ++ snippet cfg ++ subRun cfg rest :=
            subRun_match_ins htm hsymf
          have htm2 : tryMatch (m ++ (snippet cfg ++ subRun cfg rest)) =
              some (m, snippet cfg ++ subRun cfg rest) := tryMatch_build hshape _
          have hsym2 : hasSym ((snippet cfg ++ subRun cfg rest).take 300) = true :=
            hasSym_snippet_append cfg _
          have e3 : subRun cfg (m ++ (snippet cfg ++ subRun cfg rest)) =
              m ++ subRun cfg (snippet cfg ++ subRun cfg rest) :=
            subRun_match_skip htm2 hsym2
          have e4 : subChanged cfg (m ++ (snippet cfg ++ subRun cfg rest)) =
              subChanged cfg (snippet cfg ++ subRun cfg rest) :=
            subChanged_match_skip htm2 hsym2
          rcases subRun_snippet_append h (subRun cfg rest) with ⟨s1, s2⟩
          have hassoc : m ++ snippet cfg ++ subRun cfg rest =
              m ++ (snippet cfg ++ subRun cfg rest) := by simp
          rw [e1, hassoc]
          constructor
          · rw [e3, s1, ihA]
          · rw [e4, s2, ihB]

theorem importStep_of_sym {c : List Char} (hs : occurs symApply c = true) :
    importStep c = (c, false) := by
  unfold importStep
  rw [if_pos hs]

theorem importStep_cases (c : List Char) :
    importStep c = (c, false) ∨
    ∃ p, importStep c = (c.take (importInsertPos c p) ++ newImport ++
      c.drop (importInsertPos c p), true) := by
  unfold importStep
  by_cases hs : occurs symApply c = true
  · left; rw [if_pos hs]
  · rw [if_neg hs]
    cases hl : lastImportStart c with
    | none => left; rfl
    | some p => right; exact ⟨p, rfl⟩

theorem importStep_not_changed {c : List Char} (h : (importStep c).2 = false) :
    (importStep c).1 = c := by
  rcases importStep_cases c with hc | ⟨p, hc⟩
  · rw [hc]
  · rw [hc] at h
    cases h

theorem marker_infix_newImport : marker <:+: newImport :=
  occurs_iff.mp (by decide)

theorem importStep_changed_marker {c : List Char} (h : (importStep c).2 = true) :
    occurs marker (importStep c).1 = true := by
  rcases importStep_cases c with hc | ⟨p, hc⟩
  · rw [hc] at h; cases h
  · rw [hc]
    rcases marker_infix_newImport with ⟨u, v, huv⟩
    refine occurs_iff.mpr ⟨c.take (importInsertPos c p) ++ u, v ++ c.drop (importInsertPos c p), ?_⟩
    simp only [List.append_assoc]
    congr 1
    rw [← huv]
    simp

theorem occurs_marker_subRun_fwd {cfg c : List Char}
    (h : occurs marker c = true) : occurs marker (subRun cfg c) = true :=
  occurs_iff.mpr (ins_infix_fwd (subRun_ins cfg c) (by decide) (occurs_iff.mp h))

theorem occurs_sym_subRun_fwd {cfg c : List Char}
    (h : occurs symApply c = true) : occurs symApply (subRun cfg c) = true :=
  occurs_iff.mpr (ins_infix_fwd (subRun_ins cfg c) (by decide) (occurs_iff.mp h))

theorem occurs_marker_subRun_back {cfg c : List Char} (hok : cfgOk cfg = true)
    (h : occurs marker (subRun cfg c) = true) : occurs marker c = true := by
  rcases ins_infix_back (subRun_ins cfg c) (snippet_head cfg) (snippet_getLast cfg)
    (by decide) (occurs_iff.mp h) with h1 | h1
  · exact occurs_iff.mpr h1
  · exfalso
    have : '@' ∈ snippet cfg := h1.subset (by decide : '@' ∈ marker)
    exact snippet_no_at hok this

theorem scanF_of_changed_false (cfg : List Char) :
    ∀ f s, s.length ≤ f → scanFc cfg f s = false → scanF cfg f s = s := by
  intro f
  induction f with
  | zero =>
    intro s hf _
    have : s = [] := List.length_eq_zero.mp (Nat.le_zero.mp hf)
    subst this
    rfl
  | succ f ih =>
    intro s hf hc
    cases s with
    | nil => rfl
    | cons c t =>
      simp only [scanF]
      simp only [scanFc] at hc
      cases htm : tryMatch (c :: t) with
      | none =>
        rw [htm] at hc
        simp only [] at hc ⊢
        rw [ih t (by simp at hf; omega) hc]
      | some p =>
        obtain ⟨m, rest⟩ := p
        rw [htm] at hc
        simp only [] at hc ⊢
        rcases tryMatch_some_shape htm with ⟨hshape, hdec⟩
        have hlt : rest.length < (c :: t).length := rest_length_lt hdec hshape.ne_nil
        by_cases hsym : hasSym (rest.take 300) = true
        · rw [if_pos hsym] at hc ⊢
          rw [ih rest (by simp at hf; simp at hlt; omega) hc, hdec]
        · rw [if_neg hsym] at hc
          cases hc

theorem subRun_of_unchanged {cfg c : List Char} (h : subChanged cfg c = false) :
    subRun cfg c = c :=
  scanF_of_changed_false cfg c.length c le_rfl h

theorem snippet_infix_of_changed (cfg : List Char) :
    ∀ f s, s.length ≤ f → scanFc cfg f s = true → snippet cfg <:+: scanF cfg f s := by
  intro f
  induction f with
  | zero =>
    intro s hf hc
    have : s = [] := List.length_eq_zero.mp (Nat.le_zero.mp hf)
    subst this
    cases hc
  | succ f ih =>
    intro s hf hc
    cases s with
    | nil => cases hc
    | cons c t =>
      simp only [scanF]
      simp only [scanFc] at hc
      cases htm : tryMatch (c :: t) with
      | none =>
        rw [htm] at hc
        simp only [] at hc ⊢
        exact List.infix_cons (ih t (by simp at hf; omega) hc)
      | some p =>
        obtain ⟨m, rest⟩ := p
        rw [htm] at hc
        simp only [] at hc ⊢
        rcases tryMatch_some_shape htm with ⟨hshape, hdec⟩
        have hlt : rest.length < (c :: t).length := rest_length_lt hdec hshape.ne_nil
        by_cases hsym : hasSym (rest.take 300) = true
        · rw [if_pos hsym] at hc ⊢
          rcases ih rest (by simp at hf; simp at hlt; omega) hc with ⟨u, v, huv⟩
          exact ⟨m ++ u, v, by rw [← huv]; simp⟩
        · rw [if_neg hsym]
          exact ⟨m, scanF cfg f rest, rfl⟩

theorem applyRL_eq_of_marker {path c : List Char} (hm : occurs marker c = true) :
    applyRL path c = (false, "Already updated", c) := by
  unfold applyRL
  rw [if_pos hm]

theorem applyRL_eq_changed {path c : List Char} (hm : occurs marker c = false)
    (hch : ((importStep c).2 ||
      subChanged (rlConfig path).data (importStep c).1) = true) :
    applyRL path c = (true, "Updated (" ++ rlConfig path ++ ")",
      subRun (rlConfig path).data (importStep c).1) := by
  unfold applyRL
  rw [if_neg (by simp [hm])]
  simp only []
  rw [if_pos hch]

theorem applyRL_eq_unchanged {path c : List Char} (hm : occurs marker c = false)
    (hch : ((importStep c).2 ||
      subChanged (rlConfig path).data (importStep c).1) = false) :
    applyRL path c = (false, "No changes needed", c) := by
  unfold applyRL
  rw [if_neg (by simp [hm])]
  simp only []
  rw [if_neg (by simp [hch])]

theorem symApply_infix_snippet (cfg : List Char) : symApply <:+: snippet cfg := by
  have h1 : symApply <:+: snipA := occurs_iff.mp (by decide)
  have h2 : snippet cfg = snipA ++ (cfg ++ snipB) := by simp [snippet]
  rw [h2]
  exact h1.trans (List.prefix_append snipA _).isInfix

/-- C2 (amended): applying the per-file transform a second time, to the
content produced by the first application, changes nothing: the content
comes back byte-identical with `changed = false`; the second status is
"Already updated" exactly when the first output contains the marker (in
particular whenever the import line was inserted) and "No changes
needed" otherwise. -/
theorem C2_second_run_fixed_point (path c : List Char) :
    applyRL path ((applyRL path c).2.2) =
      (false,
       if occurs marker ((applyRL path c).2.2) = true then "Already updated"
       else "No changes needed",
       (applyRL path c).2.2) := by
  have hok : cfgOk (rlConfig path).data = true := cfgOk_rlConfig path
  by_cases hm : occurs marker c = true
  · rw [applyRL_eq_of_marker hm]
    simp only []
    rw [if_pos hm, applyRL_eq_of_marker hm]
  · have hmf : occurs marker c = false := by
      simp only [Bool.not_eq_true] at hm
      exact hm
    by_cases hch : ((importStep c).2 ||
        subChanged (rlConfig path).data (importStep c).1) = true
    · rw [applyRL_eq_changed hmf hch]
      simp only []
      by_cases hm1 : (importStep c).2 = true
      · have hmark1 : occurs marker (importStep c).1 = true := importStep_changed_marker hm1
        have hmark2 : occurs marker (subRun (rlConfig path).data (importStep c).1) = true :=
          occurs_marker_subRun_fwd hmark1
        rw [if_pos hmark2, applyRL_eq_of_marker hmark2]
      · have hm1f : (importStep c).2 = false := by
          simp only [Bool.not_eq_true] at hm1
          exact hm1
        have hc1 : (importStep c).1 = c := importStep_not_changed hm1f
        rw [hc1] at hch ⊢
        have hch2 : subChanged (rlConfig path).data c = true := by
          rw [hm1f] at hch
          simpa using hch
        have hmark2 : occurs marker (subRun (rlConfig path).data c) = false := by
          cases hval : occurs marker (subRun (rlConfig path).data c) with
          | false => rfl
          | true =>
            exfalso
            have := occurs_marker_subRun_back hok hval
            rw [hmf] at this
            cases this
        rw [if_neg (by rw [hmark2]; simp)]
        have hsnip : snippet (rlConfig path).data <:+: subRun (rlConfig path).data c :=
          snippet_infix_of_changed _ c.length c le_rfl hch2
        have hsym' : occurs symApply (subRun (rlConfig path).data c) = true :=
          occurs_iff.mpr ((symApply_infix_snippet _).trans hsnip)
        have himp2 : importStep (subRun (rlConfig path).data c) =
            (subRun (rlConfig path).data c, false) := importStep_of_sym hsym'
        rcases subRun_idem hok c.length c le_rfl with ⟨hi1, hi2⟩
        rw [applyRL_eq_unchanged hmark2 (by rw [himp2]; simpa using hi2)]
    · have hchf : ((importStep c).2 ||
          subChanged (rlConfig path).data (importStep c).1) = false := by
        simp only [Bool.not_eq_true] at hch
        exact hch
      rw [applyRL_eq_unchanged hmf hchf]
      simp only []
      rw [if_neg (by rw [hmf]; simp)]
      rw [applyRL_eq_unchanged hmf hchf]

/-- Counterexample to C2 as stated: on empty content both applications
report "No changes needed" — the second application's status is not
"Already updated". -/
theorem C2_counterexample :
    (applyRL "a/route.ts".data ((applyRL "a/route.ts".data []).2.2)).2.1 =
      "No changes needed" ∧
    (applyRL "a/route.ts".data ((applyRL "a/route.ts".data []).2.2)).2.1 ≠
      "Already updated" := by
  refine ⟨by decide, by decide⟩

/-- C10: on content that lacks the marker but already mentions
`applyRateLimit` somewhere, the import step never fires, yet the guard
pass still runs over the content; when it inserts, the file is reported
updated while still lacking the marker import, and a subsequent run over
the written content reports "No changes needed" — not "Already
updated". -/
theorem C10_sym_without_marker (path c : List Char)
    (hm : occurs marker c = false) (hs : occurs symApply c = true) :
    importStep c = (c, false) ∧
    (subChanged (rlConfig path).data c = true →
      applyRL path c = (true, "Updated (" ++ rlConfig path ++ ")",
        subRun (rlConfig path).data c)) ∧
    occurs marker (subRun (rlConfig path).data c) = false ∧
    applyRL path (subRun (rlConfig path).data c) =
      (false, "No changes needed", subRun (rlConfig path).data c) := by
  have hok : cfgOk (rlConfig path).data = true := cfgOk_rlConfig path
  have himp : importStep c = (c, false) := importStep_of_sym hs
  have hmark2 : occurs marker (subRun (rlConfig path).data c) = false := by
    cases hval : occurs marker (subRun (rlConfig path).data c) with
    | false => rfl
    | true =>
      exfalso
      have := occurs_marker_subRun_back hok hval
      rw [hm] at this
      cases this
  have hsym' : occurs symApply (subRun (rlConfig path).data c) = true :=
    occurs_sym_subRun_fwd hs
  have himp2 : importStep (subRun (rlConfig path).data c) =
      (subRun (rlConfig path).data c, false) := importStep_of_sym hsym'
  rcases subRun_idem hok c.length c le_rfl with ⟨hi1, hi2⟩
  refine ⟨himp, ?_, hmark2, ?_⟩
  · intro hch
    have : ((importStep c).2 || subChanged (rlConfig path).data (importStep c).1) = true := by
      rw [himp]
      simpa using hch
    have h1 := applyRL_eq_changed hm this
    rw [himp] at h1
    exact h1
  · exact applyRL_eq_unchanged hmark2 (by rw [himp2]; simpa using hi2)

/-- Witness for C10: a file that mentions `applyRateLimit` in a comment
but has an unguarded handler gets the guard and is reported updated;
re-running on the result reports "No changes needed". -/
theorem C10_sym_without_marker_witness :
    importStep "// applyRateLimit\nexport async function GET(request: NextRequest) \x7b\n\x7d\n".data =
      ("// applyRateLimit\nexport async function GET(request: NextRequest) \x7b\n\x7d\n".data,
        false) ∧
    (subChanged (rlConfig "x/route.ts".data).data
        "// applyRateLimit\nexport async function GET(request: NextRequest) \x7b\n\x7d\n".data = true →
      applyRL "x/route.ts".data
          "// applyRateLimit\nexport async function GET(request: NextRequest) \x7b\n\x7d\n".data =
        (true, "Updated (" ++ rlConfig "x/route.ts".data ++ ")",
         subRun (rlConfig "x/route.ts".data).data
           "// applyRateLimit\nexport async function GET(request: NextRequest) \x7b\n\x7d\n".data)) ∧
    occurs marker (subRun (rlConfig "x/route.ts".data).data
      "// applyRateLimit\nexport async function GET(request: NextRequest) \x7b\n\x7d\n".data) = false ∧
    applyRL "x/route.ts".data
        (subRun (rlConfig "x/route.ts".data).data
          "// applyRateLimit\nexport async function GET(request: NextRequest) \x7b\n\x7d\n".data) =
      (false, "No changes needed",
       subRun (rlConfig "x/route.ts".data).data
         "// applyRateLimit\nexport async function GET(request: NextRequest) \x7b\n\x7d\n".data) :=
  C10_sym_without_marker "x/route.ts".data
    "// applyRateLimit\nexport async function GET(request: NextRequest) \x7b\n\x7d\n".data
    (by decide) (by decide)

end ServiceDesk
